import Mathlib

/-!
Verification development for the snapshot-engine core of the
Comfyui-Workflow-Snapshot-Manager repository.

The JavaScript source is shallowly embedded: JS `Map`s become ordered
association lists with JS insertion-order semantics, JS arrays become
`List`s, nullable values become `Option`s, machine integers are `Int`
with explicit two's-complement truncation where the source relies on it
(`quickHash`), and the scalar domain of widget/property values is the
inductive `JVal` (null / boolean / number / string), on which JS strict
equality coincides with structural equality.

Embedded functions (names follow the source):
  quickHash, detectChangeType, computeDetailedDiff, buildSnapshotTree,
  getDisplayPath, getAncestorIds, selectBranchContaining, captureSnapshot.
The two unbounded `while` loops of the source (`getDisplayPath`,
`getAncestorIds`, and the parent walk of `selectBranchContaining`) are
embedded with an explicit fuel parameter; the termination claims are
stated as fuel-independence of the result above an explicit bound.
-/

namespace SnapshotManager

/-! ## JS `Map` model

An insertion-ordered association list.  `mapSet` on an existing key
replaces the value in place (JS `Map.prototype.set` keeps the original
insertion position); on a fresh key it appends.  `mapGet` is
`Map.prototype.get`, `mapHas` is `Map.prototype.has`.  Iterating the
list itself models `for (const [k, v] of m)` (JS iteration order is
insertion order). -/

abbrev JMap (K V : Type) : Type := List (K × V)

namespace JMap

def mapGet {K V : Type} [DecidableEq K] : JMap K V → K → Option V
  | [], _ => none
  | p :: m, k => if p.1 = k then some p.2 else mapGet m k

def mapHas {K V : Type} [DecidableEq K] (m : JMap K V) (k : K) : Bool :=
  (mapGet m k).isSome

def mapSet {K V : Type} [DecidableEq K] (m : JMap K V) (k : K) (v : V) : JMap K V :=
  if mapHas m k then
    m.map (fun p => if p.1 = k then (k, v) else p)
  else
    m ++ [(k, v)]

theorem mapGet_nil {K V : Type} [DecidableEq K] (k : K) :
    mapGet (V := V) [] k = none := rfl

theorem mapGet_cons {K V : Type} [DecidableEq K] (a : K × V) (m : JMap K V) (k : K) :
    mapGet (a :: m) k = if a.1 = k then some a.2 else mapGet m k := rfl

theorem mapGet_isSome_iff {K V : Type} [DecidableEq K] (m : JMap K V) (k : K) :
    (mapGet m k).isSome = true ↔ k ∈ m.map Prod.fst := by
  induction m with
  | nil => simp [mapGet]
  | cons a m ih =>
    rw [mapGet_cons]
    by_cases h : a.1 = k
    · simp [h]
    · have : ¬ (k = a.1) := fun hc => h hc.symm
      simp [h, ih, this]

theorem mapHas_iff {K V : Type} [DecidableEq K] (m : JMap K V) (k : K) :
    mapHas m k = true ↔ k ∈ m.map Prod.fst := by
  rw [mapHas]; exact mapGet_isSome_iff m k

theorem mapGet_eq_none_of_not_mem {K V : Type} [DecidableEq K] (m : JMap K V) (k : K)
    (h : k ∉ m.map Prod.fst) : mapGet m k = none := by
  cases hg : mapGet m k with
  | none => rfl
  | some v =>
    exact absurd ((mapGet_isSome_iff m k).mp (by simp [hg])) h

theorem mapGet_append {K V : Type} [DecidableEq K] (m1 m2 : JMap K V) (k : K) :
    mapGet (m1 ++ m2) k =
      match mapGet m1 k with
      | some v => some v
      | none => mapGet m2 k := by
  induction m1 with
  | nil => simp [mapGet]
  | cons a m ih =>
    rw [List.cons_append, mapGet_cons, mapGet_cons]
    by_cases h : a.1 = k <;> simp [h, ih]

theorem mapGet_set_self {K V : Type} [DecidableEq K] (m : JMap K V) (k : K) (v : V) :
    mapGet (mapSet m k v) k = some v := by
  by_cases h : mapHas m k = true
  · rw [mapSet, if_pos h]
    induction m with
    | nil => simp [mapHas, mapGet] at h
    | cons a m ih =>
      simp only [List.map_cons]
      by_cases ha : a.1 = k
      · rw [mapGet_cons]
        simp [ha]
      · rw [mapGet_cons]
        simp only [if_neg ha]
        apply ih
        rw [mapHas, mapGet_cons, if_neg ha] at h
        exact h
  · rw [mapSet, if_neg h, mapGet_append]
    have hnone : mapGet m k = none := by
      cases hg : mapGet m k with
      | none => rfl
      | some w => rw [mapHas, hg] at h; simp at h
    rw [hnone]
    simp [mapGet]

theorem mapGet_set_other {K V : Type} [DecidableEq K] (m : JMap K V) (k k' : K) (v : V)
    (h : k' ≠ k) : mapGet (mapSet m k v) k' = mapGet m k' := by
  have hkk : ¬ (k = k') := fun hc => h hc.symm
  by_cases hh : mapHas m k = true
  · rw [mapSet, if_pos hh]
    clear hh
    induction m with
    | nil => rfl
    | cons a m ih =>
      simp only [List.map_cons]
      rw [mapGet_cons, mapGet_cons]
      by_cases ha : a.1 = k
      · simp only [if_pos ha]
        have h1 : ((k, v) : K × V).1 = k := rfl
        rw [h1] at *
        have h2 : ¬ (a.1 = k') := ha ▸ hkk
        simp only [if_neg hkk, if_neg h2, ih]
      · simp only [if_neg ha]
        by_cases hak : a.1 = k'
        · simp only [if_pos hak]
        · simp only [if_neg hak, ih]
  · rw [mapSet, if_neg hh, mapGet_append]
    cases hg : mapGet m k' with
    | some w => simp
    | none =>
      rw [mapGet_cons, mapGet_nil]
      have h1 : ((k, v) : K × V).1 = k := rfl
      rw [h1, if_neg hkk]

/-- Keys of a map produced by `mapSet`. -/
theorem mapSet_keys {K V : Type} [DecidableEq K] (m : JMap K V) (k : K) (v : V) :
    (mapSet m k v).map Prod.fst =
      if mapHas m k then m.map Prod.fst else m.map Prod.fst ++ [k] := by
  unfold mapSet
  by_cases h : mapHas m k = true
  · simp only [h, if_true, List.map_map]
    have : (Prod.fst ∘ fun p : K × V => if p.1 = k then (k, v) else p) = Prod.fst := by
      funext p
      by_cases hp : p.1 = k <;> simp [hp]
    rw [this]
  · simp [h]

theorem mem_of_mapGet_eq_some {K V : Type} [DecidableEq K] {m : JMap K V} {k : K} {v : V}
    (h : mapGet m k = some v) : (k, v) ∈ m := by
  induction m with
  | nil => simp [mapGet] at h
  | cons a m ih =>
    rw [mapGet_cons] at h
    by_cases ha : a.1 = k
    · simp only [ha, if_true, Option.some.injEq] at h
      have : a = (k, v) := by
        cases a with
        | mk x y =>
          simp only at ha h
          rw [ha, h]
      rw [← this]
      exact List.mem_cons_self a m
    · simp only [if_neg ha] at h
      exact List.mem_cons_of_mem a (ih h)

/-- In a map whose keys are distinct, every entry is what `mapGet`
returns at its key. -/
theorem mapGet_of_mem_of_nodup {K V : Type} [DecidableEq K] {m : JMap K V} {k : K} {v : V}
    (hn : (m.map Prod.fst).Nodup) (h : (k, v) ∈ m) : mapGet m k = some v := by
  induction m with
  | nil => simp at h
  | cons a m ih =>
    simp only [List.map_cons, List.nodup_cons] at hn
    rcases List.mem_cons.mp h with h1 | h1
    · rw [← h1, mapGet_cons]; simp
    · rw [mapGet_cons]
      have hk : ¬ (a.1 = k) := by
        intro hc
        have : k ∈ List.map Prod.fst m := by
          have := List.mem_map_of_mem Prod.fst h1
          simpa using this
        exact hn.1 (hc ▸ this)
      rw [if_neg hk]
      exact ih hn.2 h1

end JMap

open JMap

/-! ## Document model

`GNode` models the fields of a serialized graph node that the classifier
and the diff engine inspect; `Graph` models the serialized workflow
(`graphData`): a node list and a link list.  Serialized litegraph links
are arrays `[linkId, srcNodeId, srcSlot, destNodeId, destSlot, type]`,
possibly null (the diff filters with `.filter(Boolean)`).  `JVal` is the
scalar value domain of widget values and properties; JS strict equality
(`===`/`!==`) on these scalars is structural equality. -/

inductive JVal : Type
  | null : JVal
  | bool : Bool → JVal
  | num : Int → JVal
  | str : String → JVal
  deriving DecidableEq, Repr

/-- A non-null serialized link `[id, src, srcSlot, dest, destSlot, type]`. -/
structure LinkRec : Type where
  linkId : Int
  srcNodeId : Int
  srcSlot : Int
  destNodeId : Int
  destSlot : Int
  ty : JVal
  deriving DecidableEq, Repr

structure GNode : Type where
  id : Int
  ty : Option String := none
  title : Option String := none
  pos : Option (Int × Int) := none
  size : Option (Int × Int) := none
  mode : Option Int := none
  widgets_values : Option (List JVal) := none
  properties : List (String × JVal) := []
  deriving DecidableEq, Repr

structure Graph : Type where
  nodes : List GNode
  links : List (Option LinkRec) := []
  deriving DecidableEq, Repr

/-! ## quickHash (src/unnamed/part_001 lines 1592-1598)

    function quickHash(str) {
        let hash = 0;
        for (let i = 0; i < str.length; i++) {
            hash = ((hash << 5) - hash + str.charCodeAt(i)) | 0;
        }
        return hash;
    }

`hash << 5` and `| 0` truncate to a signed 32-bit integer; the
intermediate subtraction/addition is exact in a JS double. -/

def toInt32 (n : Int) : Int := (n + 2 ^ 31) % 2 ^ 32 - 2 ^ 31

def quickHashStep (hash : Int) (c : Nat) : Int :=
  toInt32 (toInt32 (hash * 2 ^ 5) - hash + c)

/-- Characters of a Lean string are code points; for strings of
basic-multilingual-plane characters (all our inputs) these coincide with
the UTF-16 code units that `charCodeAt` yields. -/
def quickHash (str : String) : Int :=
  str.data.foldl (fun hash c => quickHashStep hash c.toNat) 0

/-! ## detectChangeType (src/js/snapshot_manager.js lines 266-360)

The flags bitmask (`FLAG_CONNECTION | FLAG_PARAM | FLAG_MOVE`) is
modeled as three booleans; `flags === ALL_FLAGS` is the conjunction. -/

/-- The per-node widget-value comparison of the classifier loop:

      const cw = cn.widgets_values; const pw = pn.widgets_values;
      if (cw !== pw) {
          if (cw == null || pw == null || !Array.isArray(cw) || !Array.isArray(pw)
              || cw.length !== pw.length) { flag }
          else { for (...) if (cw[i] !== pw[i]) { flag; break } }
      }

In the model widget values are always absent or an array, so the
`!Array.isArray` disjuncts are vacuous. -/
def widgetsDiffer (pn cn : GNode) : Bool :=
  let cw := cn.widgets_values
  let pw := pn.widgets_values
  if cw = pw then false
  else
    match cw, pw with
    | none, _ => true
    | _, none => true
    | some cl, some pl =>
      if cl.length ≠ pl.length then true
      else (cl.zip pl).any (fun q => q.1 ≠ q.2)

/-- `cp?.[0] !== pp?.[0] || cp?.[1] !== pp?.[1]` (optional chaining on an
absent position yields `undefined`, modeled by `Option.map`). -/
def posDiffer (pn cn : GNode) : Bool :=
  cn.pos.map Prod.fst ≠ pn.pos.map Prod.fst ∨ cn.pos.map Prod.snd ≠ pn.pos.map Prod.snd

/-- The link-comparison stage computing `FLAG_CONNECTION`:

      if (prevLinks.length !== currLinks.length) { flag }
      else if (prevLinks.length > 0) {
          spot-check first/last endpoints; else full JSON.stringify compare
      }

`JSON.stringify(a) !== JSON.stringify(b)` on link arrays over the `JVal`
scalar domain coincides with structural inequality of the lists, which is
how the full check is rendered here. -/
def linkFlag (prevLinks currLinks : List (Option LinkRec)) : Bool :=
  if prevLinks.length ≠ currLinks.length then true
  else if 0 < prevLinks.length then
    let pFirst := prevLinks.head?.join
    let cFirst := currLinks.head?.join
    let pLast := prevLinks.getLast?.join
    let cLast := currLinks.getLast?.join
    if pFirst.map LinkRec.linkId ≠ cFirst.map LinkRec.linkId ∨
        pFirst.map LinkRec.srcNodeId ≠ cFirst.map LinkRec.srcNodeId ∨
        pLast.map LinkRec.linkId ≠ cLast.map LinkRec.linkId ∨
        pLast.map LinkRec.srcNodeId ≠ cLast.map LinkRec.srcNodeId then true
    else prevLinks ≠ currLinks
  else false

/-- The node loop accumulating `FLAG_PARAM` and `FLAG_MOVE` with the
`if (flags === ALL_FLAGS) break` early exit (`conn` is the already-fixed
`FLAG_CONNECTION`). -/
def nodeFlagsLoop (prevNodeMap : JMap Int GNode) (conn : Bool) :
    Bool → Bool → List GNode → Bool × Bool
  | param, move, [] => (param, move)
  | param, move, cn :: rest =>
    match mapGet prevNodeMap cn.id with
    | none => nodeFlagsLoop prevNodeMap conn param move rest
    | some pn =>
      let param1 := param || widgetsDiffer pn cn
      let move1 := move || posDiffer pn cn
      if conn && param1 && move1 then (param1, move1)
      else nodeFlagsLoop prevNodeMap conn param1 move1 rest

def buildPrevNodeMap (prevNodes : List GNode) : JMap Int GNode :=
  prevNodes.foldl (fun m n => mapSet m n.id n) []

def detectChangeType (prevGraph : Option Graph) (currGraph : Graph) : String :=
  match prevGraph with
  | none => "initial"
  | some pg =>
    let prevNodes := pg.nodes
    let currNodes := currGraph.nodes
    if prevNodes.length ≠ currNodes.length then
      if prevNodes.length < currNodes.length then "node_add" else "node_remove"
    else
      let prevIds := prevNodes.map GNode.id
      let hasAdded := currNodes.any (fun n => ¬ n.id ∈ prevIds)
      if hasAdded then "mixed"
      else
        let connFlag := linkFlag pg.links currGraph.links
        let prevNodeMap := buildPrevNodeMap prevNodes
        let pm := nodeFlagsLoop prevNodeMap connFlag false false currNodes
        let paramFlag := pm.1
        let moveFlag := pm.2
        if connFlag = false ∧ paramFlag = false ∧ moveFlag = false then "unknown"
        else
          let count := (if connFlag then 1 else 0) + (if paramFlag then 1 else 0) +
            (if moveFlag then 1 else 0)
          if count > 1 then "mixed"
          else if connFlag then "connection"
          else if paramFlag then "param"
          else "move"

/-! ### The three spec predicates of section 4.1, stated without the
staged spot-checks and early exits of the implementation. -/

/-- Relation change: the ordered relation list differs (in length or content). -/
def relationChanged (pg cg : Graph) : Prop := pg.links ≠ cg.links

/-- Parameter change: some element present in both documents has a
differing ordered value list. -/
def paramChanged (pg cg : Graph) : Prop :=
  ∃ cn ∈ cg.nodes, ∃ pn, mapGet (buildPrevNodeMap pg.nodes) cn.id = some pn ∧
    widgetsDiffer pn cn = true

/-- Position change: some element present in both documents has a
differing 2D position. -/
def positionChanged (pg cg : Graph) : Prop :=
  ∃ cn ∈ cg.nodes, ∃ pn, mapGet (buildPrevNodeMap pg.nodes) cn.id = some pn ∧
    posDiffer pn cn = true

instance (pg cg : Graph) : Decidable (relationChanged pg cg) := by
  unfold relationChanged; infer_instance

instance (pg cg : Graph) : Decidable (paramChanged pg cg) := by
  unfold paramChanged; infer_instance

instance (pg cg : Graph) : Decidable (positionChanged pg cg) := by
  unfold positionChanged; infer_instance

/-- The classifier dispatch of section 4.1: one flag set gives that
flag's category, several give mixed, none gives unknown. -/
def classifierVerdict (conn param move : Bool) : String :=
  match conn, param, move with
  | false, false, false => "unknown"
  | true, false, false => "connection"
  | false, true, false => "param"
  | false, false, true => "move"
  | _, _, _ => "mixed"

theorem bool_eq_decide {P : Prop} [Decidable P] {b : Bool} (h : b = true ↔ P) :
    b = decide P := by
  cases b with
  | false =>
    have hnp : ¬ P := fun hp => Bool.false_ne_true (h.mpr hp)
    simp [hnp]
  | true => simp [h.mp rfl]

theorem linkFlag_eq_true_iff (pl cl : List (Option LinkRec)) :
    linkFlag pl cl = true ↔ pl ≠ cl := by
  unfold linkFlag
  by_cases hlen : pl.length ≠ cl.length
  · rw [if_pos hlen]
    simp only [true_iff]
    intro hc
    exact hlen (hc ▸ rfl)
  · rw [if_neg hlen]
    push_neg at hlen
    by_cases hpos : 0 < pl.length
    · rw [if_pos hpos]
      by_cases hspot :
          (pl.head?.join.map LinkRec.linkId ≠ cl.head?.join.map LinkRec.linkId ∨
            pl.head?.join.map LinkRec.srcNodeId ≠ cl.head?.join.map LinkRec.srcNodeId ∨
            pl.getLast?.join.map LinkRec.linkId ≠ cl.getLast?.join.map LinkRec.linkId ∨
            pl.getLast?.join.map LinkRec.srcNodeId ≠ cl.getLast?.join.map LinkRec.srcNodeId)
      · rw [if_pos hspot]
        simp only [true_iff]
        intro hc
        subst hc
        rcases hspot with h | h | h | h <;> exact h rfl
      · rw [if_neg hspot]
        simp
    · rw [if_neg hpos]
      simp only [Bool.false_eq_true, false_iff, not_not]
      have h0 : pl.length = 0 := Nat.le_zero.mp (Nat.not_lt.mp hpos)
      have h1 : pl = [] := List.length_eq_zero.mp h0
      have h2 : cl = [] := List.length_eq_zero.mp (hlen ▸ h0)
      rw [h1, h2]

/-- The flag-accumulating node loop computes exactly the two
existential predicates, notwithstanding its early exits. -/
theorem nodeFlagsLoop_spec (pm : JMap Int GNode) (conn : Bool) (l : List GNode)
    (param move : Bool) :
    nodeFlagsLoop pm conn param move l =
      (param || l.any (fun cn => ((mapGet pm cn.id).map (fun pn => widgetsDiffer pn cn)).getD false),
       move || l.any (fun cn => ((mapGet pm cn.id).map (fun pn => posDiffer pn cn)).getD false)) := by
  induction l generalizing param move with
  | nil => simp [nodeFlagsLoop]
  | cons cn rest ih =>
    rw [nodeFlagsLoop]
    cases hg : mapGet pm cn.id with
    | none =>
      rw [ih]
      simp [hg]
    | some pn =>
      simp only
      by_cases hb : (conn && (param || widgetsDiffer pn cn) && (move || posDiffer pn cn)) = true
      · rw [if_pos hb]
        simp only [Bool.and_eq_true] at hb
        have hp : (param || widgetsDiffer pn cn) = true := hb.1.2
        have hm : (move || posDiffer pn cn) = true := hb.2
        rw [List.any_cons, List.any_cons, Prod.mk.injEq]
        refine ⟨?_, ?_⟩
        · rw [hp]
          simp [hg, ← Bool.or_assoc, hp]
        · rw [hm]
          simp [hg, ← Bool.or_assoc, hm]
      · rw [if_neg hb, ih]
        rw [List.any_cons, List.any_cons, Prod.mk.injEq]
        refine ⟨?_, ?_⟩ <;> simp [hg, Bool.or_assoc]

theorem paramChanged_iff (pg cg : Graph) :
    paramChanged pg cg ↔
      (cg.nodes.any (fun cn =>
        ((mapGet (buildPrevNodeMap pg.nodes) cn.id).map
          (fun pn => widgetsDiffer pn cn)).getD false)) = true := by
  rw [List.any_eq_true]
  unfold paramChanged
  constructor
  · rintro ⟨cn, hcn, pn, hget, hw⟩
    exact ⟨cn, hcn, by simp [hget, hw]⟩
  · rintro ⟨cn, hcn, hx⟩
    cases hg : mapGet (buildPrevNodeMap pg.nodes) cn.id with
    | none => rw [hg] at hx; simp at hx
    | some pn =>
      rw [hg] at hx
      simp at hx
      exact ⟨cn, hcn, pn, hg, hx⟩

theorem positionChanged_iff (pg cg : Graph) :
    positionChanged pg cg ↔
      (cg.nodes.any (fun cn =>
        ((mapGet (buildPrevNodeMap pg.nodes) cn.id).map
          (fun pn => posDiffer pn cn)).getD false)) = true := by
  rw [List.any_eq_true]
  unfold positionChanged
  constructor
  · rintro ⟨cn, hcn, pn, hget, hw⟩
    exact ⟨cn, hcn, by simp [hget, hw]⟩
  · rintro ⟨cn, hcn, hx⟩
    cases hg : mapGet (buildPrevNodeMap pg.nodes) cn.id with
    | none => rw [hg] at hx; simp at hx
    | some pn =>
      rw [hg] at hx
      simp at hx
      exact ⟨cn, hcn, pn, hg, hx⟩

theorem dispatch_eq_verdict (conn param move : Bool) :
    (if conn = false ∧ param = false ∧ move = false then "unknown"
     else
       if ((if conn then 1 else 0) + (if param then 1 else 0) +
          (if move then 1 else 0) : Nat) > 1 then "mixed"
       else if conn then "connection" else if param then "param" else "move") =
    classifierVerdict conn param move := by
  cases conn <;> cases param <;> cases move <;> rfl

/-- Core characterization of `detectChangeType` on documents with
duplicate-free, identical element-id sets. -/
theorem detectChangeType_eq_verdict (pg cg : Graph)
    (hp : (pg.nodes.map GNode.id).Nodup) (hc : (cg.nodes.map GNode.id).Nodup)
    (hset : (pg.nodes.map GNode.id).toFinset = (cg.nodes.map GNode.id).toFinset) :
    detectChangeType (some pg) cg =
      classifierVerdict (decide (relationChanged pg cg)) (decide (paramChanged pg cg))
        (decide (positionChanged pg cg)) := by
  have hlen : pg.nodes.length = cg.nodes.length := by
    have h1 : (pg.nodes.map GNode.id).toFinset.card = pg.nodes.length := by
      rw [List.toFinset_card_of_nodup hp, List.length_map]
    have h2 : (cg.nodes.map GNode.id).toFinset.card = cg.nodes.length := by
      rw [List.toFinset_card_of_nodup hc, List.length_map]
    rw [← h1, ← h2, hset]
  have hmem : ∀ n ∈ cg.nodes, n.id ∈ List.map GNode.id pg.nodes := by
    intro n hn
    have h1 : n.id ∈ (cg.nodes.map GNode.id).toFinset := by
      rw [List.mem_toFinset]
      exact List.mem_map_of_mem GNode.id hn
    rw [← hset, List.mem_toFinset] at h1
    exact h1
  have hadd : (cg.nodes.any (fun n => decide (¬ n.id ∈ pg.nodes.map GNode.id))) = false := by
    rw [List.any_eq_false]
    intro n hn
    simpa using hmem n hn
  simp only [detectChangeType]
  rw [if_neg (not_not.mpr hlen), hadd]
  rw [if_neg (by simp : ¬ (false = true))]
  rw [nodeFlagsLoop_spec]
  simp only [Bool.false_or]
  have e1 : linkFlag pg.links cg.links = decide (relationChanged pg cg) :=
    bool_eq_decide (by rw [linkFlag_eq_true_iff]; exact Iff.rfl)
  have e2 : (cg.nodes.any (fun cn =>
      ((mapGet (buildPrevNodeMap pg.nodes) cn.id).map
        (fun pn => widgetsDiffer pn cn)).getD false)) = decide (paramChanged pg cg) :=
    bool_eq_decide (paramChanged_iff pg cg).symm
  have e3 : (cg.nodes.any (fun cn =>
      ((mapGet (buildPrevNodeMap pg.nodes) cn.id).map
        (fun pn => posDiffer pn cn)).getD false)) = decide (positionChanged pg cg) :=
    bool_eq_decide (positionChanged_iff pg cg).symm
  rw [e1, e2, e3]
  exact dispatch_eq_verdict _ _ _

/-! ### Claim C7 -/

/-- C7 counterexample input: two documents with equal node counts whose
id sets differ, but where every current id occurs among the previous
ids (possible only through a duplicated id). -/
def pgC7 : Graph := { nodes := [{ id := 1 }, { id := 2 }] }

def cgC7 : Graph := { nodes := [{ id := 1 }, { id := 1 }] }

/-- C7, counterexample: the claim states that equal element counts with
differing element-id sets always classify as Mixed.  For the documents
`pgC7` (ids 1, 2) and `cgC7` (ids 1, 1) the counts are equal (2 = 2) and
the id sets differ ({1,2} vs {1}), yet `detectChangeType` returns
"unknown", not "mixed": the implementation only tests whether some
current id is absent from the previous ids. -/
theorem C7_counterexample :
    pgC7.nodes.length = cgC7.nodes.length ∧
      (pgC7.nodes.map GNode.id).toFinset ≠ (cgC7.nodes.map GNode.id).toFinset ∧
      detectChangeType (some pgC7) cgC7 = "unknown" ∧
      detectChangeType (some pgC7) cgC7 ≠ "mixed" := by
  refine ⟨rfl, by decide, by decide, by decide⟩

/-- C7 (amended): for documents with duplicate-free element ids, equal
element counts and differing element-id sets, the classifier returns
"mixed". -/
theorem C7_detectChangeType_mixed (pg cg : Graph)
    (hp : (pg.nodes.map GNode.id).Nodup) (hc : (cg.nodes.map GNode.id).Nodup)
    (hlen : pg.nodes.length = cg.nodes.length)
    (hset : (pg.nodes.map GNode.id).toFinset ≠ (cg.nodes.map GNode.id).toFinset) :
    detectChangeType (some pg) cg = "mixed" := by
  have hadd : (cg.nodes.any (fun n => decide (¬ n.id ∈ pg.nodes.map GNode.id))) = true := by
    by_contra hno
    apply hset
    have hsub : (cg.nodes.map GNode.id).toFinset ⊆ (pg.nodes.map GNode.id).toFinset := by
      intro x hx
      rw [List.mem_toFinset] at hx ⊢
      rcases List.mem_map.mp hx with ⟨n, hn, hid⟩
      have := List.any_eq_false.mp (Bool.eq_false_iff.mpr hno) n hn
      rw [decide_eq_true_iff, not_not] at this
      exact hid ▸ this
    have hcard : (pg.nodes.map GNode.id).toFinset.card ≤ (cg.nodes.map GNode.id).toFinset.card := by
      rw [List.toFinset_card_of_nodup hp, List.toFinset_card_of_nodup hc,
        List.length_map, List.length_map, hlen]
    exact (Finset.eq_of_subset_of_card_le hsub hcard).symm
  simp only [detectChangeType]
  rw [if_neg (not_not.mpr hlen), hadd]
  rw [if_pos rfl]

/-- C7 witness: distinct duplicate-free id sets of equal size (ids 1, 2
against ids 1, 3) do classify as "mixed". -/
theorem C7_witness :
    ((Graph.mk [{ id := 1 }, { id := 2 }] []).nodes.map GNode.id).Nodup ∧
      detectChangeType (some (Graph.mk [{ id := 1 }, { id := 2 }] []))
        (Graph.mk [{ id := 1 }, { id := 3 }] []) = "mixed" :=
  ⟨by decide,
    C7_detectChangeType_mixed (Graph.mk [{ id := 1 }, { id := 2 }] [])
      (Graph.mk [{ id := 1 }, { id := 3 }] []) (by decide) (by decide) rfl (by decide)⟩

/-! ### Claim C8 -/

/-- C8 counterexample input: identical id sets but a duplicated current
id, so the node counts differ and the classifier never reaches the
three predicates. -/
def pgC8 : Graph := { nodes := [{ id := 1 }] }

def cgC8 : Graph := { nodes := [{ id := 1 }, { id := 1 }] }

/-- C8, counterexample: `pgC8` and `cgC8` have identical element-id sets
({1} = {1}) and none of the three predicates holds, so the claim
requires "unknown"; the code returns "node_add" because the length
test precedes any id-set comparison. -/
theorem C8_counterexample :
    (pgC8.nodes.map GNode.id).toFinset = (cgC8.nodes.map GNode.id).toFinset ∧
      ¬ relationChanged pgC8 cgC8 ∧ ¬ paramChanged pgC8 cgC8 ∧
      ¬ positionChanged pgC8 cgC8 ∧
      detectChangeType (some pgC8) cgC8 = "node_add" ∧
      detectChangeType (some pgC8) cgC8 ≠
        classifierVerdict (decide (relationChanged pgC8 cgC8))
          (decide (paramChanged pgC8 cgC8)) (decide (positionChanged pgC8 cgC8)) := by
  refine ⟨by decide, by decide, by decide, by decide, by decide, by decide⟩

/-- C8 (amended): for documents with identical, duplicate-free
element-id sets the classifier returns the verdict determined by the
relation-change, parameter-change and position-change predicates
(single flag gives that category, several give "mixed", none gives
"unknown"); and classifying against a null previous document always
gives "initial". -/
theorem C8_detectChangeType_verdict_and_initial :
    (∀ pg cg : Graph, (pg.nodes.map GNode.id).Nodup → (cg.nodes.map GNode.id).Nodup →
      (pg.nodes.map GNode.id).toFinset = (cg.nodes.map GNode.id).toFinset →
      detectChangeType (some pg) cg =
        classifierVerdict (decide (relationChanged pg cg)) (decide (paramChanged pg cg))
          (decide (positionChanged pg cg))) ∧
    (∀ g : Graph, detectChangeType none g = "initial") :=
  ⟨detectChangeType_eq_verdict, fun _ => rfl⟩

/-- C8 witness: for a single node whose position moved, exactly the
position predicate holds, and the classifier returns "move". -/
theorem C8_witness :
    detectChangeType (some (Graph.mk [{ id := 1, pos := some (0, 0) }] []))
      (Graph.mk [{ id := 1, pos := some (4, 0) }] []) =
      classifierVerdict (decide (relationChanged
          (Graph.mk [{ id := 1, pos := some (0, 0) }] [])
          (Graph.mk [{ id := 1, pos := some (4, 0) }] [])))
        (decide (paramChanged (Graph.mk [{ id := 1, pos := some (0, 0) }] [])
          (Graph.mk [{ id := 1, pos := some (4, 0) }] [])))
        (decide (positionChanged (Graph.mk [{ id := 1, pos := some (0, 0) }] [])
          (Graph.mk [{ id := 1, pos := some (4, 0) }] []))) ∧
    detectChangeType (some (Graph.mk [{ id := 1, pos := some (0, 0) }] []))
      (Graph.mk [{ id := 1, pos := some (4, 0) }] []) = "move" ∧
    detectChangeType none (Graph.mk [{ id := 1 }] []) = "initial" :=
  ⟨C8_detectChangeType_verdict_and_initial.1 _ _ (by decide) (by decide) (by decide),
    by decide,
    C8_detectChangeType_verdict_and_initial.2 _⟩

/-! ## computeDetailedDiff (src/js/snapshot_manager.js lines 377-506) -/

/-- JS `a || b` for a possibly-absent string (`""` is falsy). -/
def jsOrStr (a : Option String) (b : String) : String :=
  match a with
  | some s => if s = "" then b else s
  | none => b

/-- The display string of a (possibly absent) scalar:
`typeof v === "object" ? JSON.stringify(v) : String(v ?? "")`.
`typeof null` is "object", so null renders as "null"; an absent value
(undefined) renders as "". -/
def jsDisplay : Option JVal → String
  | none => ""
  | some JVal.null => "null"
  | some (JVal.bool b) => cond b "true" "false"
  | some (JVal.num n) => toString n
  | some (JVal.str s) => s

/-- JS `new Set([...])` insertion-order deduplication. -/
def insertionDedup {α : Type} [DecidableEq α] (l : List α) : List α :=
  l.foldl (fun acc k => if k ∈ acc then acc else acc ++ [k]) []

/-- `{ id, type: n.type || "?", title: n.title || n.type || "#id" }`. -/
structure NodeRef : Type where
  id : Int
  ty : String
  title : String
  deriving DecidableEq, Repr

def mkNodeRef (id : Int) (n : GNode) : NodeRef :=
  { id := id, ty := jsOrStr n.ty "?",
    title := jsOrStr n.title (jsOrStr n.ty ("#" ++ toString id)) }

/-- `{ index, from, to }` entries of a widget-value change list. -/
structure WidgetIndexDiff : Type where
  index : Nat
  fromS : String
  toS : String
  deriving DecidableEq, Repr

/-- `changes.widgetValues` is either the raw `{from, to}` pair (null or
length-mismatch case) or a list of per-index differences. -/
inductive WidgetValuesChange : Type
  | pair (fromV toV : Option (List JVal)) : WidgetValuesChange
  | diffs (l : List WidgetIndexDiff) : WidgetValuesChange
  deriving DecidableEq, Repr

/-- `{ key, from, to }` entries of the property change list. -/
structure PropDiff : Type where
  key : String
  fromS : String
  toS : String
  deriving DecidableEq, Repr

structure NodeChanges : Type where
  position : Option (Option (Int × Int) × Option (Int × Int)) := none
  size : Option (Option (Int × Int) × Option (Int × Int)) := none
  title : Option (String × String) := none
  mode : Option (Option Int × Option Int) := none
  widgetValues : Option WidgetValuesChange := none
  properties : Option (List PropDiff) := none
  deriving DecidableEq, Repr

/-- `Object.keys(changes).length > 0`. -/
def NodeChanges.hasAny (c : NodeChanges) : Bool :=
  c.position.isSome || c.size.isSome || c.title.isSome || c.mode.isSome ||
    c.widgetValues.isSome || c.properties.isSome

structure ModifiedNode : Type where
  id : Int
  ty : String
  title : String
  changes : NodeChanges
  deriving DecidableEq, Repr

structure DiffSummary : Type where
  nodesAdded : Nat
  nodesRemoved : Nat
  nodesModified : Nat
  linksAdded : Nat
  linksRemoved : Nat
  deriving DecidableEq, Repr

structure DetailedDiff : Type where
  addedNodes : List NodeRef
  removedNodes : List NodeRef
  modifiedNodes : List ModifiedNode
  addedLinks : List LinkRec
  removedLinks : List LinkRec
  summary : DiffSummary
  deriving DecidableEq, Repr

def emptyDetailedDiff : DetailedDiff :=
  { addedNodes := [], removedNodes := [], modifiedNodes := [], addedLinks := [],
    removedLinks := [],
    summary := { nodesAdded := 0, nodesRemoved := 0, nodesModified := 0,
                 linksAdded := 0, linksRemoved := 0 } }

/-- The per-node `changes` record of the modified-node loop. -/
def nodeChangesOf (bn tn : GNode) : NodeChanges :=
  let position :=
    if bn.pos.map Prod.fst ≠ tn.pos.map Prod.fst ∨
        bn.pos.map Prod.snd ≠ tn.pos.map Prod.snd then
      some (bn.pos, tn.pos)
    else none
  let size :=
    if bn.size.map Prod.fst ≠ tn.size.map Prod.fst ∨
        bn.size.map Prod.snd ≠ tn.size.map Prod.snd then
      some (bn.size, tn.size)
    else none
  let title :=
    if jsOrStr bn.title "" ≠ jsOrStr tn.title "" then
      some (jsOrStr bn.title "", jsOrStr tn.title "")
    else none
  let mode := if bn.mode ≠ tn.mode then some (bn.mode, tn.mode) else none
  let widgetValues :=
    let bw := bn.widgets_values
    let tw := tn.widgets_values
    if bw = tw then none
    else
      match bw, tw with
      | some bl, some tl =>
        if bl.length ≠ tl.length then some (WidgetValuesChange.pair bw tw)
        else
          let diffs := (List.range (max bl.length tl.length)).filterMap (fun i =>
            let bv := bl.get? i
            let tv := tl.get? i
            if bv ≠ tv then
              let bs := jsDisplay bv
              let ts := jsDisplay tv
              if bs ≠ ts then some ⟨i, bs, ts⟩ else none
            else none)
          if diffs.length > 0 then some (WidgetValuesChange.diffs diffs) else none
      | _, _ => some (WidgetValuesChange.pair bw tw)
  let properties :=
    let bp := bn.properties
    let tp := tn.properties
    let allPropKeys := insertionDedup (bp.map Prod.fst ++ tp.map Prod.fst)
    let propDiffs := allPropKeys.filterMap (fun key =>
      let bv := mapGet bp key
      let tv := mapGet tp key
      if bv ≠ tv then
        let bs := jsDisplay bv
        let ts := jsDisplay tv
        if bs ≠ ts then some ⟨key, bs, ts⟩ else none
      else none)
    if propDiffs.length > 0 then some propDiffs else none
  { position := position, size := size, title := title, mode := mode,
    widgetValues := widgetValues, properties := properties }

def buildNodeMap (nodes : List GNode) : JMap Int GNode :=
  nodes.foldl (fun m n => mapSet m n.id n) []

def buildLinkMap (links : List LinkRec) : JMap Int LinkRec :=
  links.foldl (fun m l => mapSet m l.linkId l) []

def computeDetailedDiff (baseGraph targetGraph : Option Graph) : DetailedDiff :=
  if baseGraph = none ∧ targetGraph = none then emptyDetailedDiff
  else
    let bNodes := (baseGraph.map Graph.nodes).getD []
    let tNodes := (targetGraph.map Graph.nodes).getD []
    let baseMap := buildNodeMap bNodes
    let targetMap := buildNodeMap tNodes
    let removedNodes := baseMap.filterMap (fun p =>
      if mapHas targetMap p.1 then none else some (mkNodeRef p.1 p.2))
    let addedNodes := targetMap.filterMap (fun p =>
      match mapGet baseMap p.1 with
      | none => some (mkNodeRef p.1 p.2)
      | some _ => none)
    let modifiedNodes := targetMap.filterMap (fun p =>
      match mapGet baseMap p.1 with
      | none => none
      | some bn =>
        let changes := nodeChangesOf bn p.2
        if changes.hasAny then
          some ({ id := p.1, ty := jsOrStr p.2.ty "?",
                  title := jsOrStr p.2.title (jsOrStr p.2.ty ("#" ++ toString p.1)),
                  changes := changes } : ModifiedNode)
        else none)
    let bLinks := ((baseGraph.map Graph.links).getD []).filterMap id
    let tLinks := ((targetGraph.map Graph.links).getD []).filterMap id
    let baseLinkMap := buildLinkMap bLinks
    let targetLinkMap := buildLinkMap tLinks
    let removedLinks := baseLinkMap.filterMap (fun p =>
      if mapHas targetLinkMap p.1 then none else some p.2)
    let addedLinks := targetLinkMap.filterMap (fun p =>
      if mapHas baseLinkMap p.1 then none else some p.2)
    { addedNodes := addedNodes, removedNodes := removedNodes,
      modifiedNodes := modifiedNodes, addedLinks := addedLinks,
      removedLinks := removedLinks,
      summary := { nodesAdded := addedNodes.length, nodesRemoved := removedNodes.length,
                   nodesModified := modifiedNodes.length, linksAdded := addedLinks.length,
                   linksRemoved := removedLinks.length } }

/-! ### Claim C9 -/

theorem buildFoldMap_keys_nodup {α K V : Type} [DecidableEq K] (key : α → K) (val : α → V)
    (l : List α) (m0 : JMap K V) (h0 : (m0.map Prod.fst).Nodup) :
    ((l.foldl (fun m x => mapSet m (key x) (val x)) m0).map Prod.fst).Nodup := by
  induction l generalizing m0 with
  | nil => exact h0
  | cons x l ih =>
    rw [List.foldl_cons]
    apply ih
    rw [mapSet_keys]
    by_cases h : mapHas m0 (key x) = true
    · rw [if_pos h]; exact h0
    · rw [if_neg h]
      have hx : key x ∉ m0.map Prod.fst := fun hc => h ((mapHas_iff m0 (key x)).mpr hc)
      simp [List.nodup_append, h0, hx]

theorem nodeChangesOf_self (n : GNode) : nodeChangesOf n n = {} := by
  simp [nodeChangesOf]

/-- C9: the structural diff of any document (or absent document) against
itself has empty added/removed/modified node lists, empty added/removed
link lists, and an all-zero summary. -/
theorem C9_diff_self_empty (g : Option Graph) :
    computeDetailedDiff g g = emptyDetailedDiff := by
  unfold computeDetailedDiff
  by_cases h0 : g = none ∧ g = none
  · rw [if_pos h0]
  · rw [if_neg h0]
    simp only
    have hnodes : ∀ (nodes : List GNode) (p : Int × GNode),
        p ∈ buildNodeMap nodes → mapGet (buildNodeMap nodes) p.1 = some p.2 := by
      intro nodes p hp
      exact mapGet_of_mem_of_nodup
        (buildFoldMap_keys_nodup GNode.id (fun n => n) nodes [] (by simp)) hp
    have hlinks : ∀ (links : List LinkRec) (p : Int × LinkRec),
        p ∈ buildLinkMap links → mapGet (buildLinkMap links) p.1 = some p.2 := by
      intro links p hp
      exact mapGet_of_mem_of_nodup
        (buildFoldMap_keys_nodup LinkRec.linkId (fun l => l) links [] (by simp)) hp
    have e1 : ∀ (nodes : List GNode),
        (buildNodeMap nodes).filterMap (fun p =>
          if mapHas (buildNodeMap nodes) p.1 then none else some (mkNodeRef p.1 p.2)) = [] := by
      intro nodes
      apply List.filterMap_eq_nil_iff.mpr
      intro p hp
      have : mapHas (buildNodeMap nodes) p.1 = true := by
        rw [mapHas, hnodes nodes p hp]
        rfl
      rw [if_pos this]
    have e2 : ∀ (nodes : List GNode),
        (buildNodeMap nodes).filterMap (fun p =>
          match mapGet (buildNodeMap nodes) p.1 with
          | none => some (mkNodeRef p.1 p.2)
          | some _ => none) = [] := by
      intro nodes
      apply List.filterMap_eq_nil_iff.mpr
      intro p hp
      rw [hnodes nodes p hp]
    have e3 : ∀ (nodes : List GNode),
        (buildNodeMap nodes).filterMap (fun p =>
          match mapGet (buildNodeMap nodes) p.1 with
          | none => none
          | some bn =>
            if (nodeChangesOf bn p.2).hasAny then
              some ({ id := p.1, ty := jsOrStr p.2.ty "?",
                      title := jsOrStr p.2.title (jsOrStr p.2.ty ("#" ++ toString p.1)),
                      changes := nodeChangesOf bn p.2 } : ModifiedNode)
            else none) = [] := by
      intro nodes
      apply List.filterMap_eq_nil_iff.mpr
      intro p hp
      rw [hnodes nodes p hp]
      simp only
      rw [nodeChangesOf_self]
      rfl
    have e4 : ∀ (links : List LinkRec),
        (buildLinkMap links).filterMap (fun p =>
          if mapHas (buildLinkMap links) p.1 then none else some p.2) = [] := by
      intro links
      apply List.filterMap_eq_nil_iff.mpr
      intro p hp
      have : mapHas (buildLinkMap links) p.1 = true := by
        rw [mapHas, hlinks links p hp]
        rfl
      rw [if_pos this]
    rw [e1, e2, e3, e4]
    rfl

/-! ## Snapshot records and buildSnapshotTree
(src/unnamed/part_001 lines 2160-2211) -/

structure SnapRecord : Type where
  id : String
  workflowKey : String := ""
  timestamp : Int := 0
  label : String := ""
  nodeCount : Nat := 0
  graphData : Option Graph := none
  locked : Bool := false
  source : Option String := none
  changeType : String := ""
  parentId : Option String := none
  deriving DecidableEq, Repr

structure SnapTree : Type where
  childrenOf : JMap String (List SnapRecord)
  parentOf : JMap String String
  roots : List SnapRecord
  byId : JMap String SnapRecord
  deriving DecidableEq, Repr

/-- The comparator `(a, b) => a.timestamp - b.timestamp` (JS sort is
stable, as is `mergeSort`). -/
def tsLe (a b : SnapRecord) : Bool := a.timestamp ≤ b.timestamp

/-- `if (!m.has(p)) m.set(p, []); m.get(p).push(r)`. -/
def pushChild (m : JMap String (List SnapRecord)) (p : String) (r : SnapRecord) :
    JMap String (List SnapRecord) :=
  mapSet m p (((mapGet m p).getD []) ++ [r])

/-- The legacy-chaining loop: walks the timestamp-sorted legacy records
carrying the previous record's id as the synthetic parent (`null` for
the first record).  The source guards the chain edge with a JS
truthiness test, `if (syntheticParent)`: when the previous record's id
is null *or the empty string*, the current record is pushed to `roots`
and no `parentOf` entry is filed. -/
def chainLegacy (parentOf : JMap String String) (childrenOf : JMap String (List SnapRecord))
    (roots : List SnapRecord) :
    Option String → List SnapRecord →
      JMap String String × JMap String (List SnapRecord) × List SnapRecord
  | _, [] => (parentOf, childrenOf, roots)
  | none, r :: rest => chainLegacy parentOf childrenOf (roots ++ [r]) (some r.id) rest
  | some p, r :: rest =>
    if p = "" then chainLegacy parentOf childrenOf (roots ++ [r]) (some r.id) rest
    else chainLegacy (mapSet parentOf r.id p) (pushChild childrenOf p r) roots (some r.id) rest

/-- One step of the branched-record loop: `parentOf.set(r.id, r.parentId)`,
then attach under the parent if it exists in `byId`, else push to roots.
The `none` arm is unreachable (the branched partition has a parent id). -/
def addBranched (byId : JMap String SnapRecord)
    (acc : JMap String String × JMap String (List SnapRecord) × List SnapRecord)
    (r : SnapRecord) :
    JMap String String × JMap String (List SnapRecord) × List SnapRecord :=
  match r.parentId with
  | none => acc
  | some pid =>
    let parentOf := mapSet acc.1 r.id pid
    if mapHas byId pid then (parentOf, pushChild acc.2.1 pid r, acc.2.2)
    else (parentOf, acc.2.1, acc.2.2 ++ [r])

def buildSnapshotTree (records : List SnapRecord) : SnapTree :=
  let byId := records.foldl (fun m r => mapSet m r.id r) []
  let legacy := records.filter (fun r => r.parentId.isNone)
  let branched := records.filter (fun r => r.parentId.isSome)
  let legacySorted := legacy.mergeSort tsLe
  let acc1 := chainLegacy [] [] [] none legacySorted
  let acc2 := branched.foldl (addBranched byId) acc1
  { childrenOf := acc2.2.1.map (fun p => (p.1, p.2.mergeSort tsLe)),
    parentOf := acc2.1,
    roots := acc2.2.2,
    byId := byId }

/-! ### Closed forms of the built tree -/

/-- The synthetic (parentId, child) edges that legacy chaining creates:
a record is chained under its predecessor only when the predecessor's id
is truthy (non-null and non-empty), mirroring `if (syntheticParent)`. -/
def chainPairs : Option String → List SnapRecord → List (String × SnapRecord)
  | _, [] => []
  | none, r :: rest => chainPairs (some r.id) rest
  | some p, r :: rest =>
    if p = "" then chainPairs (some r.id) rest
    else (p, r) :: chainPairs (some r.id) rest

/-- The legacy records that the chaining loop pushes to `roots`: the
first one, and every record whose predecessor's id is the empty string. -/
def chainRoots : Option String → List SnapRecord → List SnapRecord
  | _, [] => []
  | none, r :: rest => r :: chainRoots (some r.id) rest
  | some p, r :: rest =>
    if p = "" then r :: chainRoots (some r.id) rest
    else chainRoots (some r.id) rest

def legacyRecs (records : List SnapRecord) : List SnapRecord :=
  (records.filter (fun r => r.parentId.isNone)).mergeSort tsLe

def branchedRecs (records : List SnapRecord) : List SnapRecord :=
  records.filter (fun r => r.parentId.isSome)

def idsOf (records : List SnapRecord) : List String := records.map SnapRecord.id

def legacyChildrenAt (records : List SnapRecord) (k : String) : List SnapRecord :=
  ((chainPairs none (legacyRecs records)).filter (fun e => e.1 = k)).map Prod.snd

def branchedChildrenAt (records : List SnapRecord) (k : String) : List SnapRecord :=
  (branchedRecs records).filter (fun r => r.parentId = some k)

/-- Closed form of a children-list lookup in the built tree. -/
def childrenAt (records : List SnapRecord) (k : String) : List SnapRecord :=
  (legacyChildrenAt records k ++
    if k ∈ idsOf records then branchedChildrenAt records k else []).mergeSort tsLe

/-- `childrenOf.get(k)` with the `!children || children.length === 0`
convention: an absent entry reads as the empty list. -/
def childrenLookup (t : SnapTree) (k : String) : List SnapRecord :=
  (mapGet t.childrenOf k).getD []

def parentOfLookup (t : SnapTree) (k : String) : Option String :=
  mapGet t.parentOf k

/-- Closed form of the root list. -/
def rootsOf (records : List SnapRecord) : List SnapRecord :=
  chainRoots none (legacyRecs records) ++
    (branchedRecs records).filter (fun r =>
      match r.parentId with
      | some pid => ¬ pid ∈ idsOf records
      | none => false)

/-! ### Fold invariants of the construction -/

def childrenGetD (m : JMap String (List SnapRecord)) (k : String) : List SnapRecord :=
  (mapGet m k).getD []

theorem mapHas_set_iff {K V : Type} [DecidableEq K] (m : JMap K V) (k x : K) (v : V) :
    mapHas (mapSet m k v) x = true ↔ (mapHas m x = true ∨ x = k) := by
  by_cases h : mapHas m k = true
  · rw [mapHas_iff, mapSet_keys, if_pos h, ← mapHas_iff]
    constructor
    · exact Or.inl
    · rintro (hx | hx)
      · exact hx
      · rw [hx]; exact h
  · rw [mapHas_iff, mapSet_keys, if_neg h, List.mem_append, List.mem_singleton,
      ← mapHas_iff]

theorem childrenGetD_pushChild_self (m : JMap String (List SnapRecord)) (p : String)
    (r : SnapRecord) : childrenGetD (pushChild m p r) p = childrenGetD m p ++ [r] := by
  unfold childrenGetD pushChild
  rw [mapGet_set_self]
  rfl

theorem childrenGetD_pushChild_other (m : JMap String (List SnapRecord)) (p k : String)
    (r : SnapRecord) (h : k ≠ p) :
    childrenGetD (pushChild m p r) k = childrenGetD m k := by
  unfold childrenGetD pushChild
  rw [mapGet_set_other _ _ _ _ h]

theorem mapGet_map_value {K V W : Type} [DecidableEq K] (m : JMap K V) (f : V → W) (k : K) :
    mapGet (m.map (fun p => (p.1, f p.2))) k = (mapGet m k).map f := by
  induction m with
  | nil => rfl
  | cons a m ih =>
    rw [List.map_cons, mapGet_cons, mapGet_cons]
    by_cases h : a.1 = k
    · simp [h]
    · simp only [h, if_false, if_neg h, ih]

theorem chainLegacy_parentOf (po : JMap String String)
    (co : JMap String (List SnapRecord)) (ro : List SnapRecord)
    (prev : Option String) (l : List SnapRecord) :
    (chainLegacy po co ro prev l).1 =
      (chainPairs prev l).foldl (fun m e => mapSet m e.2.id e.1) po := by
  induction l generalizing po co ro prev with
  | nil => cases prev <;> rfl
  | cons r rest ih =>
    cases prev with
    | none => rw [chainLegacy, chainPairs, ih]
    | some p =>
      rw [chainLegacy, chainPairs]
      by_cases hpe : p = ""
      · rw [if_pos hpe, if_pos hpe, ih]
      · rw [if_neg hpe, if_neg hpe, List.foldl_cons, ih]

theorem chainLegacy_childrenGetD (po : JMap String String)
    (co : JMap String (List SnapRecord)) (ro : List SnapRecord)
    (prev : Option String) (l : List SnapRecord) (k : String) :
    childrenGetD (chainLegacy po co ro prev l).2.1 k =
      childrenGetD co k ++
        (((chainPairs prev l).filter (fun e => e.1 = k)).map Prod.snd) := by
  induction l generalizing po co ro prev with
  | nil => cases prev <;> simp [chainLegacy, chainPairs]
  | cons r rest ih =>
    cases prev with
    | none => rw [chainLegacy, chainPairs, ih]
    | some p =>
      rw [chainLegacy, chainPairs]
      by_cases hpe : p = ""
      · rw [if_pos hpe, if_pos hpe, ih]
      · rw [if_neg hpe, if_neg hpe, ih]
        by_cases hp : p = k
        · subst hp
          rw [childrenGetD_pushChild_self]
          rw [List.filter_cons_of_pos (by simp), List.map_cons, List.append_assoc]
          rfl
        · rw [childrenGetD_pushChild_other _ _ _ _ (fun hc => hp hc.symm)]
          rw [List.filter_cons_of_neg (by simp [hp])]

theorem chainLegacy_roots (po : JMap String String)
    (co : JMap String (List SnapRecord)) (ro : List SnapRecord)
    (prev : Option String) (l : List SnapRecord) :
    (chainLegacy po co ro prev l).2.2 = ro ++ chainRoots prev l := by
  induction l generalizing po co ro prev with
  | nil => cases prev <;> simp [chainLegacy, chainRoots]
  | cons r rest ih =>
    cases prev with
    | none =>
      rw [chainLegacy, chainRoots, ih]
      simp
    | some p =>
      rw [chainLegacy, chainRoots]
      by_cases hpe : p = ""
      · rw [if_pos hpe, if_pos hpe, ih]
        simp
      · rw [if_neg hpe, if_neg hpe, ih]

def addParentEdge (m : JMap String String) (r : SnapRecord) : JMap String String :=
  match r.parentId with
  | none => m
  | some pid => mapSet m r.id pid

theorem branchedFold_parentOf (byId : JMap String SnapRecord) (l : List SnapRecord)
    (acc : JMap String String × JMap String (List SnapRecord) × List SnapRecord) :
    (l.foldl (addBranched byId) acc).1 = l.foldl addParentEdge acc.1 := by
  induction l generalizing acc with
  | nil => rfl
  | cons r rest ih =>
    rw [List.foldl_cons, List.foldl_cons, ih]
    congr 1
    unfold addBranched addParentEdge
    cases r.parentId with
    | none => rfl
    | some pid =>
      simp only
      by_cases h : mapHas byId pid = true
      · rw [if_pos h]
      · rw [if_neg h]

theorem branchedFold_childrenGetD (byId : JMap String SnapRecord) (l : List SnapRecord)
    (acc : JMap String String × JMap String (List SnapRecord) × List SnapRecord)
    (k : String) :
    childrenGetD (l.foldl (addBranched byId) acc).2.1 k =
      childrenGetD acc.2.1 k ++
        (if mapHas byId k = true then l.filter (fun r => r.parentId = some k) else []) := by
  induction l generalizing acc with
  | nil => simp
  | cons r rest ih =>
    rw [List.foldl_cons, ih]
    unfold addBranched
    cases hr : r.parentId with
    | none =>
      simp only
      rw [List.filter_cons_of_neg (by simp [hr])]
    | some pid =>
      simp only
      by_cases hh : mapHas byId pid = true
      · rw [if_pos hh]
        simp only
        by_cases hp : pid = k
        · subst hp
          rw [childrenGetD_pushChild_self, if_pos hh,
            List.filter_cons_of_pos (by simp [hr]), if_pos hh, List.append_assoc]
          rfl
        · rw [childrenGetD_pushChild_other _ _ _ _ (fun hc => hp hc.symm),
            List.filter_cons_of_neg (by simp [hr, hp])]
      · rw [if_neg hh]
        simp only
        by_cases hp : pid = k
        · subst hp
          rw [if_neg hh, if_neg hh]
        · rw [List.filter_cons_of_neg (by simp [hr, hp])]

theorem branchedFold_roots (byId : JMap String SnapRecord) (l : List SnapRecord)
    (acc : JMap String String × JMap String (List SnapRecord) × List SnapRecord) :
    (l.foldl (addBranched byId) acc).2.2 =
      acc.2.2 ++ l.filter (fun r =>
        match r.parentId with
        | some pid => ! mapHas byId pid
        | none => false) := by
  induction l generalizing acc with
  | nil => simp
  | cons r rest ih =>
    rw [List.foldl_cons, ih]
    unfold addBranched
    cases hr : r.parentId with
    | none =>
      simp only
      rw [List.filter_cons_of_neg (by simp [hr])]
    | some pid =>
      simp only
      by_cases hh : mapHas byId pid = true
      · rw [if_pos hh, List.filter_cons_of_neg (by simp [hr, hh])]
      · rw [if_neg hh]
        simp only
        rw [List.filter_cons_of_pos (by simp [hr]; exact Bool.eq_false_iff.mpr hh),
          List.append_assoc]
        rfl

def byIdOf (records : List SnapRecord) : JMap String SnapRecord :=
  records.foldl (fun m r => mapSet m r.id r) []

/-- The accumulator after the legacy-chaining and branched loops:
(parentOf, childrenOf before the final per-key sort, roots). -/
def buildAcc (records : List SnapRecord) :
    JMap String String × JMap String (List SnapRecord) × List SnapRecord :=
  (branchedRecs records).foldl (addBranched (byIdOf records))
    (chainLegacy [] [] [] none (legacyRecs records))

theorem buildSnapshotTree_eq (records : List SnapRecord) :
    buildSnapshotTree records =
      { childrenOf := (buildAcc records).2.1.map (fun p => (p.1, p.2.mergeSort tsLe)),
        parentOf := (buildAcc records).1,
        roots := (buildAcc records).2.2,
        byId := byIdOf records } := rfl

theorem byId_has_iff (records : List SnapRecord) (x : String) :
    mapHas (byIdOf records) x = true ↔ x ∈ idsOf records := by
  rw [byIdOf]
  suffices h : ∀ (m0 : JMap String SnapRecord),
      mapHas (records.foldl (fun m r => mapSet m r.id r) m0) x = true ↔
        (mapHas m0 x = true ∨ x ∈ idsOf records) by
    rw [h []]
    simp [mapHas, mapGet]
  intro m0
  induction records generalizing m0 with
  | nil => simp [idsOf]
  | cons r rest ih =>
    rw [List.foldl_cons, ih]
    rw [mapHas_set_iff]
    unfold idsOf
    rw [List.map_cons, List.mem_cons]
    tauto

theorem getD_map_sort (m : JMap String (List SnapRecord)) (k : String) :
    (mapGet (m.map (fun p => (p.1, p.2.mergeSort tsLe))) k).getD [] =
      (childrenGetD m k).mergeSort tsLe := by
  induction m with
  | nil => simp [childrenGetD, mapGet, List.mergeSort_nil]
  | cons a m ih =>
    rw [List.map_cons, mapGet_cons]
    rw [childrenGetD, mapGet_cons]
    by_cases h : a.1 = k
    · simp only [h, if_pos rfl]
      rfl
    · simp only [if_neg h]
      exact ih

/-- Closed form of a children-list lookup in the built tree. -/
theorem childrenLookup_build (records : List SnapRecord) (k : String) :
    childrenLookup (buildSnapshotTree records) k = childrenAt records k := by
  have hacc : childrenGetD (buildAcc records).2.1 k =
      legacyChildrenAt records k ++
        (if k ∈ idsOf records then branchedChildrenAt records k else []) := by
    rw [buildAcc, branchedFold_childrenGetD, chainLegacy_childrenGetD]
    by_cases hk : k ∈ idsOf records
    · rw [if_pos ((byId_has_iff records k).mpr hk), if_pos hk]
      rfl
    · rw [if_neg (fun hc => hk ((byId_has_iff records k).mp hc)), if_neg hk]
      rfl
  rw [childrenLookup, buildSnapshotTree_eq]
  simp only
  rw [getD_map_sort, hacc]
  rfl

/-- Closed form of the root list of the built tree. -/
theorem roots_build (records : List SnapRecord) :
    (buildSnapshotTree records).roots = rootsOf records := by
  rw [buildSnapshotTree_eq]
  simp only
  rw [buildAcc, branchedFold_roots, chainLegacy_roots]
  simp only [List.nil_append]
  rw [rootsOf]
  congr 1
  apply List.filter_congr
  intro r hr
  cases hp : r.parentId with
  | none => rfl
  | some pid =>
    simp only
    by_cases hh : pid ∈ idsOf records
    · have h1 : mapHas (byIdOf records) pid = true := (byId_has_iff records pid).mpr hh
      rw [h1]
      simp [hh]
    · have h1 : mapHas (byIdOf records) pid = false :=
        Bool.eq_false_iff.mpr (fun hc => hh ((byId_has_iff records pid).mp hc))
      rw [h1]
      simp [hh]

/-! ### Membership and distinctness utilities -/

theorem chainPairs_some_snd (l : List SnapRecord) :
    ∀ p, List.Sublist ((chainPairs (some p) l).map Prod.snd) l := by
  induction l with
  | nil =>
    intro p
    rw [chainPairs]
    simp
  | cons r rest ih =>
    intro p
    rw [chainPairs]
    by_cases hpe : p = ""
    · rw [if_pos hpe]
      exact (ih r.id).trans (List.sublist_cons_self r rest)
    · rw [if_neg hpe]
      rw [List.map_cons]
      exact List.Sublist.cons₂ r (ih r.id)

theorem chainPairs_none_snd (l : List SnapRecord) :
    List.Sublist ((chainPairs none l).map Prod.snd) l.tail := by
  cases l with
  | nil => simp [chainPairs]
  | cons r rest =>
    rw [chainPairs]
    exact chainPairs_some_snd rest r.id

theorem chainPairs_snd_mem {prev : Option String} {l : List SnapRecord}
    {p : String} {r : SnapRecord} (h : (p, r) ∈ chainPairs prev l) : r ∈ l := by
  have hm : r ∈ (chainPairs prev l).map Prod.snd := List.mem_map_of_mem Prod.snd h
  cases prev with
  | none =>
    exact List.mem_of_mem_tail ((chainPairs_none_snd l).subset hm)
  | some p0 =>
    exact (chainPairs_some_snd l p0).subset hm

theorem chainRoots_subset (l : List SnapRecord) :
    ∀ prev, chainRoots prev l ⊆ l := by
  induction l with
  | nil =>
    intro prev x hx
    rw [chainRoots] at hx
    simp at hx
  | cons r rest ih =>
    intro prev x hx
    cases prev with
    | none =>
      rw [chainRoots] at hx
      rcases List.mem_cons.mp hx with h | h
      · exact h ▸ List.mem_cons_self _ _
      · exact List.mem_cons_of_mem _ (ih _ h)
    | some p =>
      rw [chainRoots] at hx
      by_cases hpe : p = ""
      · rw [if_pos hpe] at hx
        rcases List.mem_cons.mp hx with h | h
        · exact h ▸ List.mem_cons_self _ _
        · exact List.mem_cons_of_mem _ (ih _ h)
      · rw [if_neg hpe] at hx
        exact List.mem_cons_of_mem _ (ih _ hx)

/-- With duplicate-free ids, a record rooted by the legacy walk is never
also filed as a synthetic chain child. -/
theorem chainRoots_pairs_disjoint (l : List SnapRecord) :
    ∀ prev, (l.map SnapRecord.id).Nodup → ∀ r ∈ chainRoots prev l, ∀ p,
      (p, r) ∈ chainPairs prev l → False := by
  induction l with
  | nil =>
    intro prev _ r hr
    rw [chainRoots] at hr
    simp at hr
  | cons x rest ih =>
    intro prev hnd r hr p hp
    rw [List.map_cons, List.nodup_cons] at hnd
    cases prev with
    | none =>
      rw [chainRoots] at hr
      rw [chainPairs] at hp
      rcases List.mem_cons.mp hr with h | h
      · subst h
        exact hnd.1 (List.mem_map_of_mem SnapRecord.id (chainPairs_snd_mem hp))
      · exact ih _ hnd.2 r h p hp
    | some p0 =>
      rw [chainRoots] at hr
      rw [chainPairs] at hp
      by_cases hpe : p0 = ""
      · rw [if_pos hpe] at hr hp
        rcases List.mem_cons.mp hr with h | h
        · subst h
          exact hnd.1 (List.mem_map_of_mem SnapRecord.id (chainPairs_snd_mem hp))
        · exact ih _ hnd.2 r h p hp
      · rw [if_neg hpe] at hr hp
        rcases List.mem_cons.mp hp with h | h
        · have hrx : r = x := congrArg Prod.snd h
          subst hrx
          exact hnd.1 (List.mem_map_of_mem SnapRecord.id (chainRoots_subset _ _ hr))
        · exact ih _ hnd.2 r hr p h

/-- After a truthy synthetic parent, a walk over non-empty-id records
roots nothing further. -/
theorem chainRoots_some_nil : ∀ (l : List SnapRecord) (p : String), p ≠ "" →
    (∀ x ∈ l, x.id ≠ "") → chainRoots (some p) l = [] := by
  intro l
  induction l with
  | nil =>
    intro p _ _
    rfl
  | cons y t ih =>
    intro p hp hl
    rw [chainRoots, if_neg hp]
    exact ih y.id (hl y (by simp)) (fun x hx => hl x (by simp [hx]))

/-- With non-empty record ids, the legacy walk roots exactly the first
record. -/
theorem chainRoots_eq_take_one (l : List SnapRecord) (hne : ∀ r ∈ l, r.id ≠ "") :
    chainRoots none l = l.take 1 := by
  cases l with
  | nil => rfl
  | cons r rest =>
    rw [chainRoots, chainRoots_some_nil rest r.id (hne r (by simp))
      (fun x hx => hne x (by simp [hx]))]
    rfl

theorem legacyRecs_mem {records : List SnapRecord} {r : SnapRecord} :
    r ∈ legacyRecs records ↔ (r ∈ records ∧ r.parentId = none) := by
  rw [legacyRecs, (List.mergeSort_perm _ tsLe).mem_iff, List.mem_filter]
  simp [Option.isNone_iff_eq_none]

theorem branchedRecs_mem {records : List SnapRecord} {r : SnapRecord} :
    r ∈ branchedRecs records ↔ (r ∈ records ∧ r.parentId.isSome = true) := by
  rw [branchedRecs, List.mem_filter]

theorem legacyRecs_ids_nodup {records : List SnapRecord}
    (hnd : (idsOf records).Nodup) : ((legacyRecs records).map SnapRecord.id).Nodup := by
  have h1 : ((records.filter (fun r => r.parentId.isNone)).map SnapRecord.id).Nodup :=
    List.Nodup.sublist (List.Sublist.map SnapRecord.id (List.filter_sublist records)) hnd
  exact ((List.mergeSort_perm _ tsLe).symm.map SnapRecord.id).nodup h1

theorem branchedRecs_ids_nodup {records : List SnapRecord}
    (hnd : (idsOf records).Nodup) : ((branchedRecs records).map SnapRecord.id).Nodup :=
  List.Nodup.sublist (List.Sublist.map SnapRecord.id (List.filter_sublist records)) hnd

/-- Distinct ids identify records: in a duplicate-free record list,
membership plus id equality forces record equality. -/
theorem id_inj {records : List SnapRecord} (hnd : (idsOf records).Nodup) :
    ∀ {r1 r2 : SnapRecord}, r1 ∈ records → r2 ∈ records → r1.id = r2.id → r1 = r2 := by
  induction records with
  | nil => intro r1 r2 h1; simp at h1
  | cons a rest ih =>
    intro r1 r2 h1 h2 heq
    rw [idsOf, List.map_cons, List.nodup_cons] at hnd
    rcases List.mem_cons.mp h1 with h1 | h1 <;> rcases List.mem_cons.mp h2 with h2 | h2
    · rw [h1, h2]
    · exfalso
      apply hnd.1
      rw [← h1, heq]
      exact List.mem_map_of_mem SnapRecord.id h2
    · exfalso
      apply hnd.1
      rw [← h2, ← heq]
      exact List.mem_map_of_mem SnapRecord.id h1
    · exact ih hnd.2 h1 h2 heq

/-! ### Characterization of parentOf lookups -/

def parentFoldPairs (records : List SnapRecord) : JMap String String :=
  (chainPairs none (legacyRecs records)).foldl (fun m e => mapSet m e.2.id e.1) []

theorem parentOf_build (records : List SnapRecord) :
    (buildSnapshotTree records).parentOf =
      (branchedRecs records).foldl addParentEdge (parentFoldPairs records) := by
  rw [buildSnapshotTree_eq]
  simp only
  rw [buildAcc, branchedFold_parentOf, chainLegacy_parentOf]
  rfl

theorem foldAddParent_get_not_mem (l : List SnapRecord) (m0 : JMap String String)
    (x : String) (h : x ∉ idsOf l) :
    mapGet (l.foldl addParentEdge m0) x = mapGet m0 x := by
  induction l generalizing m0 with
  | nil => rfl
  | cons r rest ih =>
    rw [idsOf, List.map_cons, List.mem_cons] at h
    push_neg at h
    rw [List.foldl_cons, ih _ (by rw [idsOf]; exact h.2)]
    unfold addParentEdge
    cases r.parentId with
    | none => rfl
    | some pid => exact mapGet_set_other _ _ _ _ h.1

theorem foldAddParent_get_mem (l : List SnapRecord) (m0 : JMap String String)
    (hnd : ((l.map SnapRecord.id)).Nodup) (r : SnapRecord) (hr : r ∈ l) (pid : String)
    (hp : r.parentId = some pid) :
    mapGet (l.foldl addParentEdge m0) r.id = some pid := by
  induction l generalizing m0 with
  | nil => simp at hr
  | cons a rest ih =>
    rw [List.map_cons, List.nodup_cons] at hnd
    rcases List.mem_cons.mp hr with h1 | h1
    · subst h1
      rw [List.foldl_cons,
        foldAddParent_get_not_mem rest _ r.id (by rw [idsOf]; exact hnd.1)]
      unfold addParentEdge
      rw [hp]
      exact mapGet_set_self _ _ _
    · rw [List.foldl_cons]
      exact ih _ hnd.2 h1

theorem foldPairs_get_not_target (pairs : List (String × SnapRecord))
    (m0 : JMap String String) (x : String)
    (h : x ∉ pairs.map (fun e => e.2.id)) :
    mapGet (pairs.foldl (fun m e => mapSet m e.2.id e.1) m0) x = mapGet m0 x := by
  induction pairs generalizing m0 with
  | nil => rfl
  | cons e rest ih =>
    rw [List.map_cons, List.mem_cons] at h
    push_neg at h
    rw [List.foldl_cons, ih _ h.2]
    exact mapGet_set_other _ _ _ _ h.1

theorem foldPairs_get_mem (pairs : List (String × SnapRecord))
    (m0 : JMap String String) (hnd : (pairs.map (fun e => e.2.id)).Nodup)
    (p : String) (r : SnapRecord) (hpr : (p, r) ∈ pairs) :
    mapGet (pairs.foldl (fun m e => mapSet m e.2.id e.1) m0) r.id = some p := by
  induction pairs generalizing m0 with
  | nil => simp at hpr
  | cons e rest ih =>
    rw [List.map_cons, List.nodup_cons] at hnd
    rcases List.mem_cons.mp hpr with h1 | h1
    · subst h1
      rw [List.foldl_cons, foldPairs_get_not_target rest _ _ (by exact hnd.1)]
      exact mapGet_set_self _ _ _
    · rw [List.foldl_cons]
      exact ih _ hnd.2 h1

theorem chainPairs_targets_eq (l : List SnapRecord) :
    List.Sublist ((chainPairs none l).map (fun e => e.2.id))
      (l.tail.map SnapRecord.id) := by
  have h : (fun e : String × SnapRecord => e.2.id) = (SnapRecord.id ∘ Prod.snd) := rfl
  rw [h, ← List.map_map]
  exact List.Sublist.map SnapRecord.id (chainPairs_none_snd l)

/-- A record id never filed in `parentOf`: the id is not a branched
record's id and not a legacy successor's id. -/
theorem parentOfLookup_eq_none (records : List SnapRecord) (x : String)
    (hb : x ∉ idsOf (branchedRecs records))
    (ht : x ∉ (legacyRecs records).tail.map SnapRecord.id) :
    parentOfLookup (buildSnapshotTree records) x = none := by
  rw [parentOfLookup, parentOf_build, foldAddParent_get_not_mem _ _ _ hb, parentFoldPairs,
    foldPairs_get_not_target _ _ _ (fun hc => ht ((chainPairs_targets_eq _).subset hc))]
  rfl

/-- parentOf lookup of a branched record is its declared parent id. -/
theorem parentOfLookup_branched (records : List SnapRecord)
    (hnd : (idsOf records).Nodup) (r : SnapRecord) (hr : r ∈ records) (pid : String)
    (hp : r.parentId = some pid) :
    parentOfLookup (buildSnapshotTree records) r.id = some pid := by
  rw [parentOfLookup, parentOf_build]
  exact foldAddParent_get_mem _ _ (branchedRecs_ids_nodup hnd) r
    (branchedRecs_mem.mpr ⟨hr, by rw [hp]; rfl⟩) pid hp

/-- parentOf lookup of a legacy successor is the previous legacy
record's id (the synthetic chain edge). -/
theorem parentOfLookup_legacy_pair (records : List SnapRecord)
    (hnd : (idsOf records).Nodup) (p : String) (r : SnapRecord)
    (hpr : (p, r) ∈ chainPairs none (legacyRecs records)) :
    parentOfLookup (buildSnapshotTree records) r.id = some p := by
  have hrl : r ∈ legacyRecs records := chainPairs_snd_mem hpr
  have hrn : r.parentId = none := (legacyRecs_mem.mp hrl).2
  have hrm : r ∈ records := (legacyRecs_mem.mp hrl).1
  have hb : r.id ∉ idsOf (branchedRecs records) := by
    intro hc
    rcases List.mem_map.mp hc with ⟨r2, h2, hid⟩
    have := id_inj hnd hrm (branchedRecs_mem.mp h2).1 hid.symm
    rw [this] at hrn
    have h3 := (branchedRecs_mem.mp h2).2
    rw [hrn] at h3
    simp at h3
  rw [parentOfLookup, parentOf_build, foldAddParent_get_not_mem _ _ _ hb, parentFoldPairs]
  have hndp : ((chainPairs none (legacyRecs records)).map (fun e => e.2.id)).Nodup :=
    List.Nodup.sublist (chainPairs_targets_eq _)
      (List.Nodup.sublist (List.Sublist.map SnapRecord.id (List.tail_sublist _))
        (legacyRecs_ids_nodup hnd))
  exact foldPairs_get_mem _ _ hndp p r hpr

/-- parentOf lookup of the first legacy record (the chain root) is
absent. -/
theorem parentOfLookup_legacy_head (records : List SnapRecord)
    (hnd : (idsOf records).Nodup) (r : SnapRecord) (rest : List SnapRecord)
    (hL : legacyRecs records = r :: rest) :
    parentOfLookup (buildSnapshotTree records) r.id = none := by
  have hrl : r ∈ legacyRecs records := by rw [hL]; exact List.mem_cons_self r rest
  have hrn : r.parentId = none := (legacyRecs_mem.mp hrl).2
  have hrm : r ∈ records := (legacyRecs_mem.mp hrl).1
  apply parentOfLookup_eq_none
  · intro hc
    rcases List.mem_map.mp hc with ⟨r2, h2, hid⟩
    have := id_inj hnd hrm (branchedRecs_mem.mp h2).1 hid.symm
    rw [this] at hrn
    have h3 := (branchedRecs_mem.mp h2).2
    rw [hrn] at h3
    simp at h3
  · have hnl := legacyRecs_ids_nodup hnd
    rw [hL, List.map_cons, List.nodup_cons] at hnl
    rw [hL]
    exact hnl.1

/-- parentOf lookup of an id that is not a record id is absent. -/
theorem parentOfLookup_not_mem (records : List SnapRecord) (x : String)
    (hx : x ∉ idsOf records) :
    parentOfLookup (buildSnapshotTree records) x = none := by
  apply parentOfLookup_eq_none
  · intro hc
    rcases List.mem_map.mp hc with ⟨r2, h2, hid⟩
    exact hx (hid ▸ List.mem_map_of_mem SnapRecord.id (branchedRecs_mem.mp h2).1)
  · intro hc
    rcases List.mem_map.mp hc with ⟨r2, h2, hid⟩
    have h3 : r2 ∈ legacyRecs records := List.mem_of_mem_tail h2
    exact hx (hid ▸ List.mem_map_of_mem SnapRecord.id (legacyRecs_mem.mp h3).1)

/-! ### The legacy chain as consecutive pairs -/

theorem chainPairs_some_eq_zip (l : List SnapRecord) :
    ∀ a : SnapRecord, a.id ≠ "" → (∀ r ∈ l, r.id ≠ "") →
      chainPairs (some a.id) l =
        ((a :: l).zip l).map (fun q => (q.1.id, q.2)) := by
  induction l with
  | nil =>
    intro a _ _
    rfl
  | cons r rest ih =>
    intro a ha hl
    rw [chainPairs, if_neg ha, ih r (hl r (by simp))
      (fun x hx => hl x (by simp [hx])), List.zip_cons_cons, List.map_cons]

theorem chainPairs_none_eq_zip (l : List SnapRecord)
    (hne : ∀ r ∈ l, r.id ≠ "") :
    chainPairs none l = (l.zip l.tail).map (fun q => (q.1.id, q.2)) := by
  cases l with
  | nil => rfl
  | cons r rest =>
    rw [chainPairs, chainPairs_some_eq_zip rest r (hne r (by simp))
      (fun x hx => hne x (by simp [hx]))]
    rfl

theorem chainPairs_keys_some (l : List SnapRecord) :
    ∀ p, p ≠ "" → (∀ r ∈ l, r.id ≠ "") →
      (chainPairs (some p) l).map Prod.fst = (p :: l.map SnapRecord.id).dropLast := by
  induction l with
  | nil =>
    intro p _ _
    rfl
  | cons r rest ih =>
    intro p hp hl
    rw [chainPairs, if_neg hp, List.map_cons, ih r.id (hl r (by simp))
      (fun x hx => hl x (by simp [hx])), List.map_cons]
    rfl

theorem chainPairs_keys_none (l : List SnapRecord) (hne : ∀ r ∈ l, r.id ≠ "") :
    (chainPairs none l).map Prod.fst = (l.map SnapRecord.id).dropLast := by
  cases l with
  | nil => rfl
  | cons r rest =>
    rw [chainPairs, chainPairs_keys_some rest r.id (hne r (by simp))
      (fun x hx => hne x (by simp [hx])), List.map_cons]

theorem filter_key_nil {α K : Type} [DecidableEq K] (l : List (K × α)) (k : K)
    (h : k ∉ l.map Prod.fst) : l.filter (fun x => x.1 = k) = [] := by
  rw [List.filter_eq_nil_iff]
  intro e he
  simp only [decide_eq_true_eq]
  intro hc
  exact h (hc ▸ List.mem_map_of_mem Prod.fst he)

/-- Filtering an association list with distinct keys by the key of one
of its entries yields exactly that entry. -/
theorem filter_key_of_nodup {α K : Type} [DecidableEq K] (l : List (K × α))
    (hnd : (l.map Prod.fst).Nodup) (e : K × α) (he : e ∈ l) :
    l.filter (fun x => x.1 = e.1) = [e] := by
  induction l with
  | nil => simp at he
  | cons a rest ih =>
    rw [List.map_cons, List.nodup_cons] at hnd
    rcases List.mem_cons.mp he with h1 | h1
    · subst h1
      rw [List.filter_cons_of_pos (by simp)]
      rw [filter_key_nil rest e.1 hnd.1]
    · have hne : ¬ (a.1 = e.1) := by
        intro hc
        exact hnd.1 (hc ▸ List.mem_map_of_mem Prod.fst h1)
      rw [List.filter_cons_of_neg (by simp [hne])]
      exact ih hnd.2 h1

/-! ### Claim C6 -/

/-- C6: on a record set whose records all lack a parent id (legacy
records, with distinct non-empty ids as the store guarantees for
generated ids), the built tree is the single timestamp-ascending chain:
the sorted legacy list is a permutation of the records, pairwise sorted
by timestamp; its first element is the only root; each record's
children list holds exactly the next record of the chain; and the last
record has no children.  The non-empty-id hypothesis is forced by the
`if (syntheticParent)` truthiness guard of the chaining loop, refuted
without it by `C6_counterexample`. -/
theorem C6_buildSnapshotTree_legacy_chain (records : List SnapRecord)
    (hnd : (idsOf records).Nodup)
    (hne : ∀ r ∈ records, r.id ≠ "")
    (hleg : ∀ r ∈ records, r.parentId = none) :
    (legacyRecs records).Perm records ∧
    List.Pairwise (fun a b : SnapRecord => a.timestamp ≤ b.timestamp) (legacyRecs records) ∧
    (buildSnapshotTree records).roots = (legacyRecs records).take 1 ∧
    (∀ q ∈ (legacyRecs records).zip (legacyRecs records).tail,
      childrenLookup (buildSnapshotTree records) q.1.id = [q.2]) ∧
    (∀ h : legacyRecs records ≠ [],
      childrenLookup (buildSnapshotTree records) ((legacyRecs records).getLast h).id = []) := by
  have hfilter : records.filter (fun r => r.parentId.isNone) = records :=
    List.filter_eq_self.mpr (fun r hr => by rw [hleg r hr]; rfl)
  have hbr : branchedRecs records = [] :=
    List.filter_eq_nil_iff.mpr (fun r hr => by rw [hleg r hr]; simp)
  have hperm : (legacyRecs records).Perm records := by
    rw [legacyRecs, hfilter]
    exact List.mergeSort_perm records tsLe
  have hLnodup : ((legacyRecs records).map SnapRecord.id).Nodup :=
    legacyRecs_ids_nodup hnd
  have hneL : ∀ r ∈ legacyRecs records, r.id ≠ "" :=
    fun r hr => hne r (legacyRecs_mem.mp hr).1
  refine ⟨hperm, ?_, ?_, ?_, ?_⟩
  · have hsorted := @List.sorted_mergeSort _ tsLe
      (fun a b c hab hbc => by
        simp only [tsLe, decide_eq_true_eq] at hab hbc ⊢
        exact le_trans hab hbc)
      (fun a b => by
        simp only [tsLe]
        rcases le_total a.timestamp b.timestamp with h | h <;> simp [h])
      (records.filter (fun r => r.parentId.isNone))
    rw [legacyRecs]
    exact hsorted.imp (fun hab => by
      simp only [tsLe, decide_eq_true_eq] at hab
      exact hab)
  · rw [roots_build, rootsOf, hbr]
    simp only [List.filter_nil, List.append_nil]
    exact chainRoots_eq_take_one _ hneL
  · intro q hq
    have hqmem : (q.1.id, q.2) ∈ chainPairs none (legacyRecs records) := by
      rw [chainPairs_none_eq_zip _ hneL]
      exact List.mem_map_of_mem _ hq
    have hkeys : ((chainPairs none (legacyRecs records)).map Prod.fst).Nodup := by
      rw [chainPairs_keys_none _ hneL]
      exact List.Nodup.sublist (List.dropLast_sublist _) hLnodup
    rw [childrenLookup_build, childrenAt, legacyChildrenAt,
      filter_key_of_nodup _ hkeys (q.1.id, q.2) hqmem]
    rw [branchedChildrenAt, hbr]
    simp only [List.filter_nil, ite_self, List.map_cons, List.map_nil, List.append_nil]
    exact List.mergeSort_singleton q.2
  · intro h
    have hlast : ((legacyRecs records).getLast h).id ∉
        (chainPairs none (legacyRecs records)).map Prod.fst := by
      rw [chainPairs_keys_none _ hneL]
      intro hc
      have hsplit : (legacyRecs records).map SnapRecord.id =
          ((legacyRecs records).map SnapRecord.id).dropLast ++
            [((legacyRecs records).map SnapRecord.id).getLast (by simp [h])] :=
        (List.dropLast_append_getLast (by simp [h])).symm
      have hglast : ((legacyRecs records).map SnapRecord.id).getLast (by simp [h]) =
          ((legacyRecs records).getLast h).id := by
        rw [List.getLast_map SnapRecord.id (legacyRecs records) (by simp [h])]
      have hnd2 := hLnodup
      rw [hsplit, List.nodup_append] at hnd2
      exact hnd2.2.2 hc (by rw [hglast]; exact List.mem_singleton.mpr rfl)
    rw [childrenLookup_build, childrenAt, legacyChildrenAt,
      filter_key_nil _ _ hlast]
    rw [branchedChildrenAt, hbr]
    simp [List.mergeSort_nil]

def recA : SnapRecord := { id := "A", timestamp := 1 }

def recB : SnapRecord := { id := "B", timestamp := 2 }

def recC : SnapRecord := { id := "C", timestamp := 3 }

/-- C6 witness: A(t=1), B(t=2), C(t=3), all without parent id, chain
into A → B → C with A the only root. -/
theorem C6_witness :
    (idsOf [recA, recB, recC]).Nodup ∧
    (∀ r ∈ [recA, recB, recC], r.id ≠ "") ∧
    ((legacyRecs [recA, recB, recC]).Perm [recA, recB, recC] ∧
      List.Pairwise (fun a b : SnapRecord => a.timestamp ≤ b.timestamp)
        (legacyRecs [recA, recB, recC]) ∧
      (buildSnapshotTree [recA, recB, recC]).roots = (legacyRecs [recA, recB, recC]).take 1 ∧
      (∀ q ∈ (legacyRecs [recA, recB, recC]).zip (legacyRecs [recA, recB, recC]).tail,
        childrenLookup (buildSnapshotTree [recA, recB, recC]) q.1.id = [q.2]) ∧
      (∀ h : legacyRecs [recA, recB, recC] ≠ [],
        childrenLookup (buildSnapshotTree [recA, recB, recC])
          ((legacyRecs [recA, recB, recC]).getLast h).id = [])) :=
  ⟨by decide, by decide,
    C6_buildSnapshotTree_legacy_chain [recA, recB, recC] (by decide) (by decide)
      (by decide)⟩

/-- C6 counterexample inputs: two legacy records, the older one with an
empty-string id. -/
def recE6 : SnapRecord := { id := "", timestamp := 1 }

def recB6 : SnapRecord := { id := "B", timestamp := 2 }

/-- C6 counterexample: with legacy records of ids "" (t=1) and "B"
(t=2), the `if (syntheticParent)` truthiness guard sees the empty
string as falsy, so "B" is pushed to roots instead of being chained:
the built tree has two roots and no chain edge, refuting the claim's
single-chain shape for arbitrary record sets. -/
theorem C6_counterexample :
    (idsOf [recE6, recB6]).Nodup ∧
    (∀ r ∈ [recE6, recB6], r.parentId = none) ∧
    (buildSnapshotTree [recE6, recB6]).roots = [recE6, recB6] ∧
    childrenLookup (buildSnapshotTree [recE6, recB6]) "" = [] := by
  have htree : buildSnapshotTree [recE6, recB6] =
      { childrenOf := [], parentOf := [], roots := [recE6, recB6],
        byId := [("", recE6), ("B", recB6)] } := by
    simp [buildSnapshotTree, chainLegacy, addBranched, mapSet, mapHas, mapGet,
      pushChild, recE6, recB6, tsLe, List.mergeSort]
  refine ⟨by decide, by decide, ?_, ?_⟩
  · rw [htree]
  · rw [childrenLookup, htree]
    rfl

/-! ## getAncestorIds (src/unnamed/part_001 lines 2233-2242)

    const ancestors = new Set();
    let current = snapshotId;
    while (parentOf.has(current)) {
        current = parentOf.get(current);
        if (ancestors.has(current)) break;
        ancestors.add(current);
    }
    return ancestors;

The `while` loop carries an explicit fuel; the JS Set (insertion
ordered, duplicate free by the `has` guard) is a list. -/

def getAncestorIdsAux (parentOf : JMap String String) :
    Nat → String → List String → List String
  | 0, _, ancestors => ancestors
  | fuel + 1, current, ancestors =>
    match mapGet parentOf current with
    | none => ancestors
    | some p =>
      if p ∈ ancestors then ancestors
      else getAncestorIdsAux parentOf fuel p (ancestors ++ [p])

/-- The canonical fuel: one more than the number of parentOf entries
(the loop adds a distinct parentOf value on every iteration). -/
def ancFuel (parentOf : JMap String String) : Nat := parentOf.length + 1

def getAncestorIds (snapshotId : String) (parentOf : JMap String String) : List String :=
  getAncestorIdsAux parentOf (ancFuel parentOf) snapshotId []

/-- Number of distinct parentOf values not yet collected. -/
def ancMeasure (parentOf : JMap String String) (ancestors : List String) : Nat :=
  (((parentOf.map Prod.snd).dedup).filter (fun v => ¬ v ∈ ancestors)).length

theorem ancMeasure_lt (parentOf : JMap String String) (ancestors : List String)
    (current : String) (p : String) (hg : mapGet parentOf current = some p)
    (hp : p ∉ ancestors) :
    ancMeasure parentOf (ancestors ++ [p]) < ancMeasure parentOf ancestors := by
  have hpv : p ∈ (parentOf.map Prod.snd).dedup := by
    rw [List.mem_dedup]
    exact List.mem_map_of_mem Prod.snd (mem_of_mapGet_eq_some hg)
  unfold ancMeasure
  have hsplit : ((parentOf.map Prod.snd).dedup).filter (fun v => ¬ v ∈ ancestors ++ [p]) =
      (((parentOf.map Prod.snd).dedup).filter (fun v => ¬ v ∈ ancestors)).filter
        (fun v => ¬ v = p) := by
    rw [List.filter_filter]
    apply List.filter_congr
    intro v hv
    simp only [List.mem_append, List.mem_singleton, decide_eq_true_eq, Bool.and_eq_true,
      decide_not]
    by_cases h1 : v ∈ ancestors <;> by_cases h2 : v = p <;> simp [h1, h2]
  rw [hsplit]
  apply List.length_filter_lt_length_iff_exists.mpr
  refine ⟨p, ?_, by simp⟩
  rw [List.mem_filter]
  exact ⟨hpv, by simp [hp]⟩

/-- With fuel at least one past the measure, the collected-ancestors
loop result no longer depends on the fuel: the loop reaches one of its
own exits. -/
theorem getAncestorIdsAux_stable (parentOf : JMap String String) :
    ∀ f1, ∀ f2 current ancestors,
      ancMeasure parentOf ancestors + 1 ≤ f1 →
      ancMeasure parentOf ancestors + 1 ≤ f2 →
      getAncestorIdsAux parentOf f1 current ancestors =
        getAncestorIdsAux parentOf f2 current ancestors := by
  intro f1
  induction f1 with
  | zero => intro f2 current ancestors h1; omega
  | succ n1 ih =>
    intro f2 current ancestors h1 h2
    cases f2 with
    | zero => omega
    | succ n2 =>
      rw [getAncestorIdsAux, getAncestorIdsAux]
      cases hg : mapGet parentOf current with
      | none => rfl
      | some p =>
        simp only
        by_cases hp : p ∈ ancestors
        · rw [if_pos hp, if_pos hp]
        · rw [if_neg hp, if_neg hp]
          have hlt := ancMeasure_lt parentOf ancestors current p hg hp
          exact ih n2 p (ancestors ++ [p]) (by omega) (by omega)

theorem ancMeasure_le (parentOf : JMap String String) (ancestors : List String) :
    ancMeasure parentOf ancestors ≤ parentOf.length := by
  calc ancMeasure parentOf ancestors
      ≤ ((parentOf.map Prod.snd).dedup).length := List.length_filter_le _ _
    _ ≤ (parentOf.map Prod.snd).length := (List.dedup_sublist _).length_le
    _ = parentOf.length := List.length_map _ _

/-- Fuel-independence of `getAncestorIds` above the canonical bound. -/
theorem getAncestorIds_fuel_indep (parentOf : JMap String String)
    (startId : String) (f : Nat) (hf : ancFuel parentOf ≤ f) :
    getAncestorIdsAux parentOf f startId [] = getAncestorIds startId parentOf := by
  rw [getAncestorIds]
  apply getAncestorIdsAux_stable
  · have := ancMeasure_le parentOf []
    rw [ancFuel] at hf
    omega
  · have := ancMeasure_le parentOf []
    rw [ancFuel]
    omega

/-! ## getDisplayPath (src/unnamed/part_001 lines 2213-2231)

    const rootIndex = branchSelections.get("__root__") ?? 0;
    let current = roots[Math.min(rootIndex, roots.length - 1)];
    const path = [current];
    while (true) {
        const children = childrenOf.get(current.id);
        if (!children || children.length === 0) break;
        const selectedIndex = branchSelections.get(current.id) ?? 0;
        current = children[Math.min(selectedIndex, children.length - 1)];
        path.push(current);
    }

The unbounded `while (true)` carries an explicit fuel; `none` means the
fuel elapsed before the loop broke. -/

def getDisplayPathAux (childrenOf : JMap String (List SnapRecord)) (sel : JMap String Nat) :
    Nat → SnapRecord → List SnapRecord → Option (List SnapRecord)
  | 0, _, _ => none
  | fuel + 1, current, path =>
    match (mapGet childrenOf current.id).getD [] with
    | [] => some path
    | c :: cs =>
      let selectedIndex := (mapGet sel current.id).getD 0
      let next := (c :: cs).get ⟨min selectedIndex cs.length,
        Nat.lt_succ_of_le (Nat.min_le_right _ _)⟩
      getDisplayPathAux childrenOf sel fuel next (path ++ [next])

def getDisplayPathFuel (tree : SnapTree) (branchSelections : JMap String Nat)
    (fuel : Nat) : Option (List SnapRecord) :=
  match tree.roots with
  | [] => some []
  | r :: rs =>
    let rootIndex := (mapGet branchSelections "__root__").getD 0
    let current := (r :: rs).get ⟨min rootIndex rs.length,
      Nat.lt_succ_of_le (Nat.min_le_right _ _)⟩
    getDisplayPathAux tree.childrenOf branchSelections fuel current [current]

/-- `getDisplayPath` at the canonical fuel (one past the number of
distinct record ids, which bounds every loop-free path). -/
def getDisplayPath (tree : SnapTree) (branchSelections : JMap String Nat) :
    List SnapRecord :=
  (getDisplayPathFuel tree branchSelections (tree.byId.length + 1)).getD []

/-! ### Structural facts about roots and children of the built tree -/

theorem rootsOf_mem {records : List SnapRecord} {r : SnapRecord}
    (h : r ∈ rootsOf records) : r ∈ records := by
  rw [rootsOf, List.mem_append] at h
  rcases h with h | h
  · exact (legacyRecs_mem.mp (chainRoots_subset _ _ h)).1
  · exact (branchedRecs_mem.mp (List.mem_of_mem_filter h)).1

theorem mem_childrenAt_iff {records : List SnapRecord} {c : SnapRecord} {k : String} :
    c ∈ childrenAt records k ↔
      ((k, c) ∈ chainPairs none (legacyRecs records) ∨
        (c ∈ branchedRecs records ∧ c.parentId = some k ∧ k ∈ idsOf records)) := by
  rw [childrenAt, (List.mergeSort_perm _ tsLe).mem_iff, List.mem_append]
  constructor
  · rintro (h | h)
    · left
      rw [legacyChildrenAt] at h
      rcases List.mem_map.mp h with ⟨e, he, hec⟩
      have hek := List.of_mem_filter he
      simp only [decide_eq_true_eq] at hek
      have : e = (k, c) := by
        cases e with
        | mk e1 e2 =>
          simp only at hek hec
          rw [hek, hec]
      rw [this] at he
      exact List.mem_of_mem_filter he
    · by_cases hk : k ∈ idsOf records
      · rw [if_pos hk] at h
        right
        rw [branchedChildrenAt] at h
        refine ⟨List.mem_of_mem_filter h, ?_, hk⟩
        have := List.of_mem_filter h
        simpa using this
      · rw [if_neg hk] at h
        simp at h
  · rintro (h | h)
    · left
      rw [legacyChildrenAt]
      apply List.mem_map.mpr
      refine ⟨(k, c), ?_, rfl⟩
      rw [List.mem_filter]
      exact ⟨h, by simp⟩
    · right
      rw [if_pos h.2.2, branchedChildrenAt, List.mem_filter]
      exact ⟨h.1, by simp [h.2.1]⟩

theorem childrenAt_mem {records : List SnapRecord} {c : SnapRecord} {k : String}
    (h : c ∈ childrenAt records k) : c ∈ records := by
  rcases mem_childrenAt_iff.mp h with h | h
  · exact (legacyRecs_mem.mp (chainPairs_snd_mem h)).1
  · exact (branchedRecs_mem.mp h.1).1

theorem assoc_fst_unique {pairs : List (String × SnapRecord)}
    (hnd : (pairs.map (fun e => e.2.id)).Nodup) {k1 k2 : String} {c : SnapRecord}
    (h1 : (k1, c) ∈ pairs) (h2 : (k2, c) ∈ pairs) : k1 = k2 := by
  induction pairs with
  | nil => simp at h1
  | cons e rest ih =>
    rw [List.map_cons, List.nodup_cons] at hnd
    rcases List.mem_cons.mp h1 with ha | ha <;> rcases List.mem_cons.mp h2 with hb | hb
    · have hab : (k1, c) = (k2, c) := ha.trans hb.symm
      exact congrArg Prod.fst hab
    · exfalso
      apply hnd.1
      rw [← ha]
      exact List.mem_map_of_mem (fun e => e.2.id) hb
    · exfalso
      apply hnd.1
      rw [← hb]
      exact List.mem_map_of_mem (fun e => e.2.id) ha
    · exact ih hnd.2 ha hb

theorem chainPairs_targets_nodup {records : List SnapRecord}
    (hnd : (idsOf records).Nodup) :
    ((chainPairs none (legacyRecs records)).map (fun e => e.2.id)).Nodup :=
  List.Nodup.sublist (chainPairs_targets_eq _)
    (List.Nodup.sublist (List.Sublist.map SnapRecord.id (List.tail_sublist _))
      (legacyRecs_ids_nodup hnd))

/-- A record occurs in at most one children list of the built tree. -/
theorem childrenAt_key_unique {records : List SnapRecord}
    (hnd : (idsOf records).Nodup) {c : SnapRecord} {k1 k2 : String}
    (h1 : c ∈ childrenAt records k1) (h2 : c ∈ childrenAt records k2) : k1 = k2 := by
  rcases mem_childrenAt_iff.mp h1 with ha | ha <;> rcases mem_childrenAt_iff.mp h2 with hb | hb
  · exact assoc_fst_unique (chainPairs_targets_nodup hnd) ha hb
  · exfalso
    have := (legacyRecs_mem.mp (chainPairs_snd_mem ha)).2
    rw [hb.2.1] at this
    simp at this
  · exfalso
    have := (legacyRecs_mem.mp (chainPairs_snd_mem hb)).2
    rw [ha.2.1] at this
    simp at this
  · rw [ha.2.1] at hb
    exact (Option.some.injEq _ _).mp hb.2.1.symm |>.symm ▸ rfl

theorem mem_take_one {α : Type} {l : List α} {r : α} (h : r ∈ l.take 1) :
    ∃ rest, l = r :: rest := by
  cases l with
  | nil => simp at h
  | cons a rest =>
    simp only [List.take, List.take_zero] at h
    rcases List.mem_singleton.mp (by simpa using h) with h1
    exact ⟨rest, by rw [h1]⟩

/-- A root record never occurs in any children list of the built tree. -/
theorem root_not_child {records : List SnapRecord} (hnd : (idsOf records).Nodup)
    {r c : SnapRecord} {k : String} (hr : r ∈ rootsOf records)
    (hc : c ∈ childrenAt records k) (hid : c.id = r.id) : False := by
  have hcr : c ∈ records := childrenAt_mem hc
  have hrr : r ∈ records := rootsOf_mem hr
  have hceq : c = r := id_inj hnd hcr hrr hid
  subst hceq
  rw [rootsOf, List.mem_append] at hr
  rcases hr with hr | hr
  · have hcn : c.parentId = none :=
      (legacyRecs_mem.mp (chainRoots_subset _ _ hr)).2
    rcases mem_childrenAt_iff.mp hc with h | h
    · exact chainRoots_pairs_disjoint _ _ (legacyRecs_ids_nodup hnd) c hr k h
    · rw [hcn] at h
      simp at h
  · have hcond := List.of_mem_filter hr
    have hcb : c ∈ branchedRecs records := List.mem_of_mem_filter hr
    have hcs := (branchedRecs_mem.mp hcb).2
    cases hp : c.parentId with
    | none => rw [hp] at hcs; simp at hcs
    | some pid =>
      rw [hp] at hcond
      simp only [decide_eq_true_eq] at hcond
      rcases mem_childrenAt_iff.mp hc with h | h
      · have := (legacyRecs_mem.mp (chainPairs_snd_mem h)).2
        rw [hp] at this
        simp at this
      · rw [hp] at h
        have : pid = k := by
          have := h.2.1
          simpa using this
        exact hcond (this ▸ h.2.2)

theorem mem_head_or_split {α : Type} {l : List α} {x : α} (h : x ∈ l) :
    l.head? = some x ∨ ∃ u a v, l = u ++ a :: x :: v := by
  induction l with
  | nil => simp at h
  | cons b rest ih =>
    rcases List.mem_cons.mp h with h1 | h1
    · left
      rw [h1]
      rfl
    · rcases ih h1 with h2 | ⟨u, a, v, huv⟩
      · right
        cases rest with
        | nil => simp at h2
        | cons r0 rtail =>
          have h3 : r0 = x := by simpa using h2
          exact ⟨[], b, rtail, by rw [h3]; rfl⟩
      · right
        exact ⟨b :: u, a, v, by rw [huv]; rfl⟩

/-- The display walk never revisits a record: the candidate next child
has an id fresh in the path walked so far. -/
theorem path_extension_fresh (records : List SnapRecord) (hnd : (idsOf records).Nodup)
    (path : List SnapRecord) (current next : SnapRecord)
    (hmem : ∀ r ∈ path, r ∈ records)
    (hnodup : (path.map SnapRecord.id).Nodup)
    (hchain : List.Chain' (fun a b => b ∈ childrenAt records a.id) path)
    (hhead : ∀ r, path.head? = some r → r ∈ rootsOf records)
    (hlast : path.getLast? = some current)
    (hnext : next ∈ childrenAt records current.id) :
    next.id ∉ path.map SnapRecord.id := by
  intro hc
  rcases List.mem_map.mp hc with ⟨r0, hr0, hid⟩
  have hnr : next ∈ records := childrenAt_mem hnext
  have : r0 = next := id_inj hnd (hmem r0 hr0) hnr hid
  subst this
  rcases mem_head_or_split hr0 with hh | ⟨u, a, v, heq⟩
  · exact root_not_child hnd (hhead r0 hh) hnext rfl
  · have hinf : List.Chain' (fun a b => b ∈ childrenAt records a.id) (a :: r0 :: v) := by
      apply List.Chain'.infix hchain
      rw [heq]
      exact (List.suffix_append u (a :: r0 :: v)).isInfix
    have hRa : r0 ∈ childrenAt records a.id := (List.chain'_cons.mp hinf).1
    have hamem : a ∈ path := by rw [heq]; simp
    have hcmem : current ∈ path := List.mem_of_mem_getLast? hlast
    have hkey : a.id = current.id := childrenAt_key_unique hnd hRa hnext
    have haeq : a = current := id_inj hnd (hmem a hamem) (hmem current hcmem) hkey
    have hlast2 : (r0 :: v).getLast? = some current := by
      rw [heq, List.getLast?_append] at hlast
      cases hgl : (r0 :: v).getLast? with
      | none => simp at hgl
      | some w =>
        have h1 : (a :: r0 :: v).getLast? = some w := by
          rw [show a :: r0 :: v = [a] ++ (r0 :: v) from rfl, List.getLast?_append, hgl]
          rfl
        rw [h1] at hlast
        simpa using hlast
    have hcin : current ∈ r0 :: v := List.mem_of_mem_getLast? hlast2
    have hain : a ∈ r0 :: v := haeq ▸ hcin
    have hndp := hnodup
    rw [heq, List.map_append, List.map_cons, List.nodup_append] at hndp
    have hcons := hndp.2.1
    rw [List.nodup_cons] at hcons
    exact hcons.1 (List.mem_map_of_mem SnapRecord.id hain)

/-- With fuel one past the number of records, the display walk reaches
its natural break: the walked path visits pairwise-distinct records, so
its length is bounded by the record count. -/
theorem displayAux_isSome (records : List SnapRecord) (hnd : (idsOf records).Nodup)
    (sel : JMap String Nat) :
    ∀ fuel current path,
      path.getLast? = some current →
      (∀ r ∈ path, r ∈ records) →
      (path.map SnapRecord.id).Nodup →
      List.Chain' (fun a b => b ∈ childrenAt records a.id) path →
      (∀ r, path.head? = some r → r ∈ rootsOf records) →
      records.length + 1 ≤ fuel + path.length →
      (getDisplayPathAux (buildSnapshotTree records).childrenOf sel fuel current
        path).isSome = true := by
  intro fuel
  induction fuel with
  | zero =>
    intro current path hlast hmem hnodup hchain hhead hfuel
    exfalso
    have hsub : path.map SnapRecord.id ⊆ records.map SnapRecord.id := by
      intro x hx
      rcases List.mem_map.mp hx with ⟨r, hr, hid⟩
      exact hid ▸ List.mem_map_of_mem SnapRecord.id (hmem r hr)
    have hle := (List.subperm_of_subset hnodup hsub).length_le
    rw [List.length_map, List.length_map] at hle
    omega
  | succ n ih =>
    intro current path hlast hmem hnodup hchain hhead hfuel
    rw [getDisplayPathAux]
    have hcl : (mapGet (buildSnapshotTree records).childrenOf current.id).getD [] =
        childrenAt records current.id := childrenLookup_build records current.id
    cases hch : (mapGet (buildSnapshotTree records).childrenOf current.id).getD [] with
    | nil => simp
    | cons c cs =>
      simp only
      have hca : childrenAt records current.id = c :: cs := hcl.symm.trans hch
      have hpne : path ≠ [] := List.ne_nil_of_mem (List.mem_of_mem_getLast? hlast)
      have hnext : ((c :: cs).get ⟨min ((mapGet sel current.id).getD 0) cs.length,
          Nat.lt_succ_of_le (Nat.min_le_right _ _)⟩) ∈ childrenAt records current.id := by
        rw [hca]
        exact List.get_mem _ _ _
      have hfresh := path_extension_fresh records hnd path current _ hmem hnodup hchain
        hhead hlast hnext
      apply ih
      · exact List.getLast?_concat path
      · intro r hr
        rcases List.mem_append.mp hr with hr | hr
        · exact hmem r hr
        · rw [List.mem_singleton.mp hr]
          exact childrenAt_mem hnext
      · rw [List.map_append, List.nodup_append]
        refine ⟨hnodup, by simp, ?_⟩
        intro x hx hx2
        rcases List.mem_singleton.mp (by simpa using hx2) with h
        rw [h] at hx
        exact hfresh hx
      · rw [List.chain'_append]
        refine ⟨hchain, List.chain'_singleton _, ?_⟩
        intro x hx y hy
        rw [hlast] at hx
        have hx1 : current = x := by simpa using hx
        have hy1 : (c :: cs).get ⟨min ((mapGet sel current.id).getD 0) cs.length,
            Nat.lt_succ_of_le (Nat.min_le_right _ _)⟩ = y := by simpa using hy
        rw [← hx1, ← hy1]
        exact hnext
      · intro r hr
        rw [List.head?_append] at hr
        cases hh : path.head? with
        | none =>
          rw [List.head?_eq_none_iff] at hh
          exact absurd hh hpne
        | some h0 =>
          rw [hh] at hr
          have : h0 = r := by simpa using hr
          exact this ▸ hhead h0 hh
      · rw [List.length_append, List.length_singleton]
        omega

theorem displayFuel_isSome (records : List SnapRecord) (hnd : (idsOf records).Nodup)
    (sel : JMap String Nat) (f : Nat) (hf : records.length ≤ f) :
    (getDisplayPathFuel (buildSnapshotTree records) sel f).isSome = true := by
  rw [getDisplayPathFuel]
  cases hr : (buildSnapshotTree records).roots with
  | nil => rfl
  | cons r rs =>
    simp only
    have hroot : ((r :: rs).get ⟨min ((mapGet sel "__root__").getD 0) rs.length,
        Nat.lt_succ_of_le (Nat.min_le_right _ _)⟩) ∈ rootsOf records := by
      rw [← roots_build records, hr]
      exact List.get_mem _ _ _
    apply displayAux_isSome records hnd sel f _ _
    · rfl
    · intro x hx
      rw [List.mem_singleton.mp hx]
      exact rootsOf_mem hroot
    · simp
    · exact List.chain'_singleton _
    · intro x hx
      have : x = _ := (Option.some.injEq _ _).mp hx.symm
      rw [this]
      exact hroot
    · rw [List.length_singleton]
      omega

theorem displayAux_some_mono (childrenOf : JMap String (List SnapRecord))
    (sel : JMap String Nat) :
    ∀ fuel current path r,
      getDisplayPathAux childrenOf sel fuel current path = some r →
      getDisplayPathAux childrenOf sel (fuel + 1) current path = some r := by
  intro fuel
  induction fuel with
  | zero =>
    intro current path r h
    rw [getDisplayPathAux] at h
    exact absurd h (by simp)
  | succ n ih =>
    intro current path r h
    rw [getDisplayPathAux] at h ⊢
    cases hch : (mapGet childrenOf current.id).getD [] with
    | nil => rw [hch] at h; exact h
    | cons c cs =>
      rw [hch] at h
      exact ih _ _ _ h

theorem displayAux_some_ge (childrenOf : JMap String (List SnapRecord))
    (sel : JMap String Nat) (f0 : Nat) (current : SnapRecord) (path : List SnapRecord)
    (r : List SnapRecord) (h : getDisplayPathAux childrenOf sel f0 current path = some r) :
    ∀ f, f0 ≤ f → getDisplayPathAux childrenOf sel f current path = some r := by
  intro f hf
  induction f, hf using Nat.le_induction with
  | base => exact h
  | succ n hn ihn => exact displayAux_some_mono childrenOf sel n current path r ihn

/-- Fuel-independence of the display walk above the canonical bound. -/
theorem displayFuel_stable (records : List SnapRecord) (hnd : (idsOf records).Nodup)
    (sel : JMap String Nat) (f : Nat) (hf : records.length + 1 ≤ f) :
    getDisplayPathFuel (buildSnapshotTree records) sel f =
      getDisplayPathFuel (buildSnapshotTree records) sel (records.length + 1) := by
  have hs := displayFuel_isSome records hnd sel (records.length + 1) (by omega)
  rw [getDisplayPathFuel] at hs ⊢
  rw [getDisplayPathFuel]
  cases hr : (buildSnapshotTree records).roots with
  | nil => rfl
  | cons r rs =>
    rw [hr] at hs
    simp only at hs ⊢
    cases hsome : getDisplayPathAux (buildSnapshotTree records).childrenOf sel
        (records.length + 1) _ [_] with
    | none => rw [hsome] at hs; simp at hs
    | some res =>
      rw [displayAux_some_ge _ _ _ _ _ _ hsome f hf]

/-- C1: on every record set with the store-guaranteed distinct ids —
including adversarial self-referential or cyclic parentId chains —
`buildSnapshotTree` terminates (it is a total function of this
development, defined by structural recursion), and both parent-walking
and child-walking traversals terminate: the `getAncestorIds` loop and
the `getDisplayPath` loop compute fuel-independent results once the
fuel passes the stated bound, and the display walk completes (isSome)
within records.length + 1 iterations. -/
theorem C1_traversals_terminate (records : List SnapRecord)
    (hnd : (idsOf records).Nodup) (sel : JMap String Nat) (startId : String) :
    (∀ f, ancFuel (buildSnapshotTree records).parentOf ≤ f →
      getAncestorIdsAux (buildSnapshotTree records).parentOf f startId [] =
        getAncestorIds startId (buildSnapshotTree records).parentOf) ∧
    (getDisplayPathFuel (buildSnapshotTree records) sel (records.length + 1)).isSome
      = true ∧
    (∀ f, records.length + 1 ≤ f →
      getDisplayPathFuel (buildSnapshotTree records) sel f =
        getDisplayPathFuel (buildSnapshotTree records) sel (records.length + 1)) :=
  ⟨fun f hf => getAncestorIds_fuel_indep _ _ f hf,
    displayFuel_isSome records hnd sel _ (by omega),
    fun f hf => displayFuel_stable records hnd sel f hf⟩

/-- C1 witness inputs: a two-cycle a ↔ b, a self-referential record s,
and a legacy root r. -/
def recsC1 : List SnapRecord :=
  [{ id := "a", parentId := some "b", timestamp := 1 },
   { id := "b", parentId := some "a", timestamp := 2 },
   { id := "s", parentId := some "s", timestamp := 3 },
   { id := "r", timestamp := 4 }]

/-- C1 witness: the termination bounds hold on the concrete adversarial
record set `recsC1`. -/
theorem C1_witness :
    (idsOf recsC1).Nodup ∧
    getAncestorIdsAux (buildSnapshotTree recsC1).parentOf
        (ancFuel (buildSnapshotTree recsC1).parentOf + 5) "a" [] =
      getAncestorIds "a" (buildSnapshotTree recsC1).parentOf ∧
    (getDisplayPathFuel (buildSnapshotTree recsC1) [] (recsC1.length + 1)).isSome
      = true ∧
    getDisplayPathFuel (buildSnapshotTree recsC1) [] (recsC1.length + 7) =
      getDisplayPathFuel (buildSnapshotTree recsC1) [] (recsC1.length + 1) := by
  have h := C1_traversals_terminate recsC1 (by decide) [] "a"
  exact ⟨by decide, h.1 _ (by omega), h.2.1, h.2.2 _ (by omega)⟩

/-! ## selectBranchContaining (src/unnamed/part_001 lines 2265-2294)

    const pathToRoot = [];
    const visited = new Set();
    let current = snapshotId;
    while (current) {
        if (visited.has(current)) break;
        visited.add(current);
        pathToRoot.push(current);
        current = tree.parentOf.get(current) || null;
    }
    pathToRoot.reverse();
    if (pathToRoot.length > 0 && tree.roots.length > 1) { set "__root__" }
    for consecutive (parentId, childId): if >1 children, set selection.

`visited` and `pathToRoot` hold exactly the same ids in the same order,
so a single list models both.  `x || null` maps the empty string (the
only falsy non-null string) to null. -/

def jsOrNullStr (o : Option String) : Option String :=
  match o with
  | some s => if s = "" then none else some s
  | none => none

def walkUp (parentOf : JMap String String) :
    Nat → Option String → List String → List String
  | 0, _, acc => acc
  | _ + 1, none, acc => acc
  | fuel + 1, some cur, acc =>
    if cur ∈ acc then acc
    else walkUp parentOf fuel (jsOrNullStr (mapGet parentOf cur)) (acc ++ [cur])

/-- One step of the fork-selection loop over consecutive
(parentId, childId) pairs of the root-to-target path. -/
def selectPairStep (tree : SnapTree) (s : JMap String Nat) (q : String × String) :
    JMap String Nat :=
  match mapGet tree.childrenOf q.1 with
  | none => s
  | some children =>
    if children.length > 1 then
      match children.findIdx? (fun c => c.id = q.2) with
      | some idx => mapSet s q.1 idx
      | none => s
    else s

def selectBranchContaining (snapshotId : String) (tree : SnapTree)
    (sel : JMap String Nat) : JMap String Nat :=
  let pathToRoot := (walkUp tree.parentOf (tree.parentOf.length + 2)
    (jsOrNullStr (some snapshotId)) []).reverse
  let sel1 :=
    match pathToRoot with
    | [] => sel
    | rootId :: _ =>
      if tree.roots.length > 1 then
        match tree.roots.findIdx? (fun r => r.id = rootId) with
        | some idx => mapSet sel "__root__" idx
        | none => sel
      else sel
  (pathToRoot.zip pathToRoot.tail).foldl (selectPairStep tree) sel1

theorem walkUp_none (parentOf : JMap String String) (fuel : Nat) (acc : List String) :
    walkUp parentOf fuel none acc = acc := by
  cases fuel <;> rfl

/-- The guarded upward walk follows a finite parent chain exactly:
starting from the head of a duplicate-free chain whose parent links
step through the chain and end at a link-free last element, the walk
appends the whole chain to the accumulator. -/
theorem walkUp_chain (m : JMap String String) :
    ∀ (rest : List SnapRecord) (first : SnapRecord) (acc : List String) (fuel : Nat),
      List.Chain' (fun a b => mapGet m a.id = some b.id) (first :: rest) →
      (∀ r, (first :: rest).getLast? = some r → mapGet m r.id = none) →
      ((first :: rest).map SnapRecord.id).Nodup →
      (∀ r ∈ first :: rest, ¬ r.id ∈ acc) →
      (∀ r ∈ first :: rest, r.id ≠ "") →
      rest.length + 1 ≤ fuel →
      walkUp m fuel (some first.id) acc = acc ++ (first :: rest).map SnapRecord.id := by
  intro rest
  induction rest with
  | nil =>
    intro first acc fuel hch hlastnone hnd hfree hne hfuel
    cases fuel with
    | zero => omega
    | succ n =>
      rw [walkUp, if_neg (hfree first (List.mem_singleton.mpr rfl))]
      have hnone : mapGet m first.id = none := hlastnone first rfl
      rw [hnone]
      rw [show jsOrNullStr none = none from rfl, walkUp_none]
      rfl
  | cons r1 rest ih =>
    intro first acc fuel hch hlastnone hnd hfree hne hfuel
    cases fuel with
    | zero => omega
    | succ n =>
      rw [walkUp, if_neg (hfree first (List.mem_cons_self _ _))]
      have hstep : mapGet m first.id = some r1.id := (List.chain'_cons.mp hch).1
      rw [hstep]
      have hr1ne : r1.id ≠ "" := hne r1 (List.mem_cons_of_mem _ (List.mem_cons_self _ _))
      rw [show jsOrNullStr (some r1.id) = some r1.id by
        rw [jsOrNullStr]; simp [hr1ne]]
      rw [List.map_cons, List.nodup_cons] at hnd
      rw [ih r1 (acc ++ [first.id]) n (List.chain'_cons.mp hch).2
        (fun r hr => hlastnone r hr)
        hnd.2
        (fun r hr => by
          rw [List.mem_append, List.mem_singleton]
          push_neg
          refine ⟨hfree r (List.mem_cons_of_mem _ hr), ?_⟩
          intro hc
          exact hnd.1 (hc ▸ List.mem_map_of_mem SnapRecord.id hr))
        (fun r hr => hne r (List.mem_cons_of_mem _ hr))
        (by simp only [List.length_cons] at hfuel; omega)]
      rw [List.map_cons, List.append_assoc]
      rfl

/-! ### Rooted paths in the built tree -/

/-- A root-to-leaf witness: a nonempty walk that starts at a root,
steps through children lists, and ends at the target record. -/
def rootedPathTo (records : List SnapRecord) (path : List SnapRecord)
    (leaf : SnapRecord) : Prop :=
  path ≠ [] ∧
  (∀ r, path.head? = some r → r ∈ rootsOf records) ∧
  List.Chain' (fun a b => b ∈ childrenAt records a.id) path ∧
  path.getLast? = some leaf

/-- Every record filed as a child is filed under the id recorded as its
parentOf entry. -/
theorem child_parentOf {records : List SnapRecord} (hnd : (idsOf records).Nodup)
    {b : SnapRecord} {k : String} (hb : b ∈ childrenAt records k) :
    parentOfLookup (buildSnapshotTree records) b.id = some k := by
  rcases mem_childrenAt_iff.mp hb with h | h
  · exact parentOfLookup_legacy_pair records hnd k b h
  · exact parentOfLookup_branched records hnd b (branchedRecs_mem.mp h.1).1 k h.2.1

/-- Without orphaned parent references, and with non-empty ids, the
built tree has at most the single legacy root. -/
theorem rootsOf_no_orphans {records : List SnapRecord}
    (hnoorph : ∀ r ∈ records, ∀ pid, r.parentId = some pid → pid ∈ idsOf records)
    (hne : ∀ r ∈ records, r.id ≠ "") :
    rootsOf records = (legacyRecs records).take 1 := by
  rw [rootsOf, chainRoots_eq_take_one _
    (fun r hr => hne r (legacyRecs_mem.mp hr).1)]
  have : (branchedRecs records).filter (fun r =>
      match r.parentId with
      | some pid => ¬ pid ∈ idsOf records
      | none => false) = [] := by
    rw [List.filter_eq_nil_iff]
    intro r hr
    have hrm := branchedRecs_mem.mp hr
    cases hp : r.parentId with
    | none => rw [hp] at hrm; simp at hrm
    | some pid =>
      simp only [hp]
      simp [hnoorph r hrm.1 pid hp]
  rw [this, List.append_nil]

theorem rooted_path_mem {records : List SnapRecord} {path : List SnapRecord}
    (hhead : ∀ r, path.head? = some r → r ∈ rootsOf records)
    (hchain : List.Chain' (fun a b => b ∈ childrenAt records a.id) path) :
    ∀ r ∈ path, r ∈ records := by
  intro r hr
  rcases mem_head_or_split hr with hh | ⟨u, a, v, heq⟩
  · exact rootsOf_mem (hhead r hh)
  · have hinf : List.Chain' (fun a b => b ∈ childrenAt records a.id) (a :: r :: v) := by
      apply List.Chain'.infix hchain
      rw [heq]
      exact (List.suffix_append u (a :: r :: v)).isInfix
    exact childrenAt_mem (List.chain'_cons.mp hinf).1

theorem rooted_path_nodup {records : List SnapRecord} (hnd : (idsOf records).Nodup)
    {path : List SnapRecord}
    (hhead : ∀ r, path.head? = some r → r ∈ rootsOf records)
    (hchain : List.Chain' (fun a b => b ∈ childrenAt records a.id) path) :
    (path.map SnapRecord.id).Nodup := by
  induction path using List.reverseRecOn with
  | nil => simp
  | append_singleton pre last ih =>
    by_cases hprene : pre = []
    · rw [hprene]
      simp
    · have hheadpre : ∀ r, pre.head? = some r → r ∈ rootsOf records := by
        intro r hr
        apply hhead r
        rw [List.head?_append, hr]
        rfl
      have hchsplit := List.chain'_append.mp hchain
      have hchpre := hchsplit.1
      have hnd2 := ih hheadpre hchpre
      rw [List.map_append, List.nodup_append]
      refine ⟨hnd2, by simp, ?_⟩
      have hgl : ∃ c, pre.getLast? = some c :=
        ⟨pre.getLast hprene, List.getLast?_eq_getLast pre hprene⟩
      obtain ⟨c, hc⟩ := hgl
      have hR : last ∈ childrenAt records c.id := by
        apply hchsplit.2.2 c
        · rw [hc]; rfl
        · rfl
      have hfresh := path_extension_fresh records hnd pre c last
        (rooted_path_mem hheadpre hchpre) hnd2 hchpre hheadpre hc hR
      intro x hx hx2
      rcases List.mem_singleton.mp (by simpa using hx2) with h
      rw [h] at hx
      exact hfresh hx

/-! ### The fork-selection fold -/

theorem zip_tail_fst {α : Type} (l : List α) :
    (l.zip l.tail).map Prod.fst = l.dropLast := by
  induction l with
  | nil => rfl
  | cons a t ih =>
    cases t with
    | nil => rfl
    | cons b t2 =>
      have ih2 : ((b :: t2).zip t2).map Prod.fst = (b :: t2).dropLast := ih
      rw [show (a :: b :: t2).tail = b :: t2 from rfl, List.zip_cons_cons, List.map_cons, ih2]
      rfl

theorem childrenAt_ids_nodup {records : List SnapRecord} (hnd : (idsOf records).Nodup)
    (k : String) : ((childrenAt records k).map SnapRecord.id).Nodup := by
  rw [childrenAt]
  apply ((List.mergeSort_perm _ tsLe).symm.map SnapRecord.id).nodup
  rw [List.map_append, List.nodup_append]
  refine ⟨?_, ?_, ?_⟩
  · have h1 : (legacyChildrenAt records k).map SnapRecord.id =
        (((chainPairs none (legacyRecs records)).filter (fun e => e.1 = k)).map
          (fun e => e.2.id)) := by
      rw [legacyChildrenAt, List.map_map]
      rfl
    rw [h1]
    exact List.Nodup.sublist
      (List.Sublist.map _ (List.filter_sublist _)) (chainPairs_targets_nodup hnd)
  · by_cases hk : k ∈ idsOf records
    · rw [if_pos hk]
      exact List.Nodup.sublist (List.Sublist.map _ (List.filter_sublist _))
        (branchedRecs_ids_nodup hnd)
    · rw [if_neg hk]
      simp
  · intro x hx1 hx2
    by_cases hk : k ∈ idsOf records
    · rw [if_pos hk] at hx2
      rcases List.mem_map.mp hx1 with ⟨c1, hc1, hid1⟩
      rcases List.mem_map.mp hx2 with ⟨c2, hc2, hid2⟩
      rw [legacyChildrenAt] at hc1
      rcases List.mem_map.mp hc1 with ⟨e, he, hec⟩
      have hc1l : c1 ∈ legacyRecs records := by
        have hp : (e.1, e.2) ∈ chainPairs none (legacyRecs records) := by
          have := List.mem_of_mem_filter he
          simpa using this
        have := chainPairs_snd_mem hp
        rw [hec] at this
        exact this
      have hc2b : c2 ∈ branchedRecs records := List.mem_of_mem_filter hc2
      have hceq : c1 = c2 := id_inj hnd (legacyRecs_mem.mp hc1l).1
        (branchedRecs_mem.mp hc2b).1 (by rw [hid1, hid2])
      have h1 := (legacyRecs_mem.mp hc1l).2
      have h2 := (branchedRecs_mem.mp hc2b).2
      rw [hceq] at h1
      rw [h1] at h2
      simp at h2
    · rw [if_neg hk] at hx2
      simp at hx2

theorem selectPairFold_get_not_mem (tree : SnapTree) (qs : List (String × String))
    (s : JMap String Nat) (k : String) (h : k ∉ qs.map Prod.fst) :
    mapGet (qs.foldl (selectPairStep tree) s) k = mapGet s k := by
  induction qs generalizing s with
  | nil => rfl
  | cons q rest ih =>
    rw [List.map_cons, List.mem_cons] at h
    push_neg at h
    rw [List.foldl_cons, ih _ h.2]
    rw [selectPairStep]
    cases mapGet tree.childrenOf q.1 with
    | none => rfl
    | some children =>
      simp only
      by_cases hlen : children.length > 1
      · rw [if_pos hlen]
        cases children.findIdx? (fun c => c.id = q.2) with
        | none => rfl
        | some idx => exact mapGet_set_other _ _ _ _ h.1
      · rw [if_neg hlen]

theorem selectPairFold_get_mem (tree : SnapTree) (qs : List (String × String))
    (s : JMap String Nat) (k next : String) (hmem : (k, next) ∈ qs)
    (hnd : (qs.map Prod.fst).Nodup) :
    mapGet (qs.foldl (selectPairStep tree) s) k =
      match mapGet tree.childrenOf k with
      | none => mapGet s k
      | some children =>
        if children.length > 1 then
          match children.findIdx? (fun c => c.id = next) with
          | some idx => some idx
          | none => mapGet s k
        else
          mapGet s k := by
  induction qs generalizing s with
  | nil => simp at hmem
  | cons q rest ih =>
    rw [List.map_cons, List.nodup_cons] at hnd
    rcases List.mem_cons.mp hmem with h1 | h1
    · subst h1
      rw [List.foldl_cons,
        selectPairFold_get_not_mem tree rest _ k (by exact hnd.1)]
      rw [selectPairStep]
      cases mapGet tree.childrenOf k with
      | none => rfl
      | some children =>
        simp only
        by_cases hlen : children.length > 1
        · rw [if_pos hlen, if_pos hlen]
          cases children.findIdx? (fun c => c.id = next) with
          | none => rfl
          | some idx => exact mapGet_set_self _ _ _
        · rw [if_neg hlen, if_neg hlen]
    · have hkq : q.1 ≠ k := by
        intro hc
        exact hnd.1 (hc ▸ List.mem_map_of_mem Prod.fst h1)
      rw [List.foldl_cons]
      have hstep : mapGet (selectPairStep tree s q) k = mapGet s k := by
        rw [selectPairStep]
        cases mapGet tree.childrenOf q.1 with
        | none => rfl
        | some children =>
          simp only
          by_cases hlen : children.length > 1
          · rw [if_pos hlen]
            cases children.findIdx? (fun c => c.id = q.2) with
            | none => rfl
            | some idx => exact mapGet_set_other _ _ _ _ (fun hc => hkq hc.symm)
          · rw [if_neg hlen]
      rw [ih _ h1 hnd.2, hstep]

/-! ### The display walk follows a selected path -/

/-- The child the display loop picks at a node with the given children
list (`children[Math.min(selectedIndex, children.length - 1)]`). -/
def displayPick (sel : JMap String Nat) (a : SnapRecord) :
    List SnapRecord → Option SnapRecord
  | [] => none
  | c :: cs => some ((c :: cs).get ⟨min ((mapGet sel a.id).getD 0) cs.length,
      Nat.lt_succ_of_le (Nat.min_le_right _ _)⟩)

theorem chain'_pairs {α : Type} {R : α → α → Prop} :
    ∀ {l : List α}, List.Chain' R l → ∀ q ∈ l.zip l.tail, R q.1 q.2 := by
  intro l
  induction l with
  | nil => intro _ q hq; simp at hq
  | cons a t ih =>
    intro hch q hq
    cases t with
    | nil => simp at hq
    | cons b t2 =>
      rw [show (a :: b :: t2).tail = b :: t2 from rfl, List.zip_cons_cons] at hq
      rcases List.mem_cons.mp hq with h1 | h1
      · rw [h1]
        exact (List.chain'_cons.mp hch).1
      · exact ih (List.chain'_cons.mp hch).2 q h1

theorem map_tail {α β : Type} (f : α → β) (l : List α) :
    (l.map f).tail = l.tail.map f := by
  cases l <;> rfl

/-- If the fork selections pick the path's next record at every step,
the display walk reproduces the path and stops at its childless end. -/
theorem displayAux_follow (records : List SnapRecord) (sel2 : JMap String Nat) :
    ∀ (l : List SnapRecord) (current : SnapRecord) (acc : List SnapRecord) (fuel : Nat),
      List.Chain' (fun a b => b ∈ childrenAt records a.id) (current :: l) →
      (∀ r, (current :: l).getLast? = some r → childrenAt records r.id = []) →
      (∀ q ∈ (current :: l).zip l,
        displayPick sel2 q.1 (childrenAt records q.1.id) = some q.2) →
      l.length + 1 ≤ fuel →
      getDisplayPathAux (buildSnapshotTree records).childrenOf sel2 fuel current acc =
        some (acc ++ l) := by
  intro l
  induction l with
  | nil =>
    intro current acc fuel hch hleaf hpick hfuel
    cases fuel with
    | zero => omega
    | succ n =>
      rw [getDisplayPathAux]
      have hcl := childrenLookup_build records current.id
      rw [childrenLookup] at hcl
      have hleaf2 : childrenAt records current.id = [] := hleaf current rfl
      rw [hcl, hleaf2]
      simp

  | cons b rest ih =>
    intro current acc fuel hch hleaf hpick hfuel
    cases fuel with
    | zero => omega
    | succ n =>
      rw [getDisplayPathAux]
      have hcl := childrenLookup_build records current.id
      rw [childrenLookup] at hcl
      have hb : b ∈ childrenAt records current.id := (List.chain'_cons.mp hch).1
      cases hca : childrenAt records current.id with
      | nil => rw [hca] at hb; simp at hb
      | cons c cs =>
        rw [hcl, hca]
        simp only
        have hpickb := hpick (current, b) (by
          rw [show (current :: b :: rest).zip (b :: rest) =
            (current, b) :: ((b :: rest).zip rest) from rfl]
          exact List.mem_cons_self _ _)
        rw [hca, displayPick] at hpickb
        have hnext : (c :: cs).get ⟨min ((mapGet sel2 current.id).getD 0) cs.length,
            Nat.lt_succ_of_le (Nat.min_le_right _ _)⟩ = b := by
          simpa using hpickb
        rw [hnext]
        rw [ih b (acc ++ [b]) n (List.chain'_cons.mp hch).2
          (fun r hr => hleaf r (by rw [List.getLast?_cons_cons]; exact hr))
          (fun q hq => hpick q (by
            rw [show (current :: b :: rest).zip (b :: rest) =
              (current, b) :: ((b :: rest).zip rest) from rfl]
            exact List.mem_cons_of_mem _ hq))
          (by simp only [List.length_cons] at hfuel; omega)]
        rw [List.append_assoc]
        rfl

theorem mapSet_length_fresh {K V : Type} [DecidableEq K] (m : JMap K V) (k : K) (v : V)
    (h : ¬ mapHas m k = true) : (mapSet m k v).length = m.length + 1 := by
  rw [mapSet, if_neg h, List.length_append]
  rfl

theorem byIdOf_length {records : List SnapRecord} (hnd : (idsOf records).Nodup) :
    (byIdOf records).length = records.length := by
  rw [byIdOf]
  suffices h : ∀ (m0 : JMap String SnapRecord),
      (∀ r ∈ records, ¬ r.id ∈ m0.map Prod.fst) → (idsOf records).Nodup →
      (records.foldl (fun m r => mapSet m r.id r) m0).length = m0.length + records.length by
    simpa using h [] (by simp) hnd
  clear hnd
  induction records with
  | nil => intro m0 h1 h2; simp
  | cons r rest ih =>
    intro m0 h1 h2
    rw [idsOf, List.map_cons, List.nodup_cons] at h2
    rw [List.foldl_cons]
    have hfresh : ¬ mapHas m0 r.id = true := by
      intro hc
      exact h1 r (List.mem_cons_self _ _) ((mapHas_iff _ _).mp hc)
    have hkeys : (mapSet m0 r.id r).map Prod.fst = m0.map Prod.fst ++ [r.id] := by
      rw [mapSet_keys]
      rw [if_neg hfresh]
    rw [ih (mapSet m0 r.id r) ?_ h2.2, mapSet_length_fresh m0 r.id r hfresh]
    · rw [List.length_cons]
      omega
    · intro r2 hr2
      rw [hkeys, List.mem_append, List.mem_singleton]
      push_neg
      refine ⟨fun hc => h1 r2 (List.mem_cons_of_mem _ hr2) hc, ?_⟩
      intro hc
      exact h2.1 (hc ▸ List.mem_map_of_mem SnapRecord.id hr2)

/-! ### Claim C5 -/

/-- C5 (amended): over records with distinct non-empty ids and no
orphaned parent references, selecting the branch containing a childless
record that is reachable from a root and then computing the display
path reproduces the whole root-to-leaf path — in particular the path
ends at that record — from any prior selection state. -/
theorem C5_selectBranch_display_round_trip (records : List SnapRecord)
    (hnd : (idsOf records).Nodup)
    (hne : ∀ r ∈ records, r.id ≠ "")
    (hnoorph : ∀ r ∈ records, ∀ pid, r.parentId = some pid → pid ∈ idsOf records)
    (leaf : SnapRecord) (hleafc : childrenAt records leaf.id = [])
    (path : List SnapRecord) (hpath : rootedPathTo records path leaf)
    (sel : JMap String Nat) :
    getDisplayPath (buildSnapshotTree records)
        (selectBranchContaining leaf.id (buildSnapshotTree records) sel) = path ∧
    (getDisplayPath (buildSnapshotTree records)
        (selectBranchContaining leaf.id (buildSnapshotTree records) sel)).getLast? =
      some leaf := by
  obtain ⟨hpne, hhead, hchain, hlast⟩ := hpath
  have hmemp : ∀ r ∈ path, r ∈ records := rooted_path_mem hhead hchain
  have hndp : (path.map SnapRecord.id).Nodup := rooted_path_nodup hnd hhead hchain
  obtain ⟨c0, hc0⟩ : ∃ c0, path.head? = some c0 := by
    cases path with
    | nil => exact absurd rfl hpne
    | cons a t => exact ⟨a, rfl⟩
  have hc0root : c0 ∈ rootsOf records := hhead c0 hc0
  have hroots1 : rootsOf records = (legacyRecs records).take 1 := rootsOf_no_orphans hnoorph hne
  obtain ⟨rest0, hL⟩ := mem_take_one (hroots1 ▸ hc0root)
  have hrootsC0 : rootsOf records = [c0] := by rw [hroots1, hL]; rfl
  have hpathcons : path = c0 :: path.tail := by
    cases path with
    | nil => exact absurd rfl hpne
    | cons a t =>
      have : a = c0 := by simpa using hc0
      rw [this]
      rfl
  -- Step A: the upward walk reproduces the reversed path.
  have hchainrev : List.Chain'
      (fun a b => mapGet (buildSnapshotTree records).parentOf a.id = some b.id)
      path.reverse := by
    rw [List.chain'_reverse]
    exact hchain.imp (fun a b hab => child_parentOf hnd hab)
  obtain ⟨pre, hpre⟩ : ∃ pre, path = pre ++ [leaf] := List.getLast?_eq_some_iff.mp hlast
  have hrev : path.reverse = leaf :: pre.reverse := by
    rw [hpre, List.reverse_append]
    rfl
  have hlastrev : ∀ r, (leaf :: pre.reverse).getLast? = some r →
      mapGet (buildSnapshotTree records).parentOf r.id = none := by
    intro r hr
    rw [← hrev, List.getLast?_reverse, hc0] at hr
    have hrc : c0 = r := by simpa using hr
    rw [← hrc]
    exact parentOfLookup_legacy_head records hnd c0 rest0 hL
  have htailsome : ∀ b ∈ path.tail,
      b.id ∈ (buildSnapshotTree records).parentOf.map Prod.fst := by
    intro b hb
    have hbp : b ∈ path := List.mem_of_mem_tail hb
    rcases mem_head_or_split hbp with hh | ⟨u, a, v, heq⟩
    · exfalso
      cases hp2 : path with
      | nil => rw [hp2] at hb; simp at hb
      | cons p0 pt =>
        rw [hp2] at hh hb hndp
        have hb0 : p0 = b := by simpa using hh
        rw [List.map_cons, List.nodup_cons] at hndp
        rw [show (p0 :: pt).tail = pt from rfl] at hb
        exact hndp.1 (hb0 ▸ List.mem_map_of_mem SnapRecord.id hb)
    · have hinf : List.Chain' (fun a b => b ∈ childrenAt records a.id) (a :: b :: v) := by
        apply List.Chain'.infix hchain
        rw [heq]
        exact (List.suffix_append u (a :: b :: v)).isInfix
      have hpb := child_parentOf hnd (List.chain'_cons.mp hinf).1
      rw [parentOfLookup] at hpb
      apply (mapGet_isSome_iff _ _).mp
      rw [hpb]
      rfl
  have hparlen : path.length ≤ (buildSnapshotTree records).parentOf.length + 1 := by
    have hndt : (path.tail.map SnapRecord.id).Nodup :=
      List.Nodup.sublist (List.Sublist.map SnapRecord.id (List.tail_sublist path)) hndp
    have hsub : path.tail.map SnapRecord.id ⊆
        (buildSnapshotTree records).parentOf.map Prod.fst := by
      intro x hx
      rcases List.mem_map.mp hx with ⟨b, hb, hid⟩
      exact hid ▸ htailsome b hb
    have hle := (List.subperm_of_subset hndt hsub).length_le
    rw [List.length_map, List.length_map] at hle
    cases path with
    | nil => simp
    | cons a t =>
      rw [List.length_cons]
      rw [show (a :: t).tail = t from rfl] at hle
      omega
  have hwalk : walkUp (buildSnapshotTree records).parentOf
      ((buildSnapshotTree records).parentOf.length + 2)
      (jsOrNullStr (some leaf.id)) [] = path.reverse.map SnapRecord.id := by
    have hleafmem : leaf ∈ path := by rw [hpre]; simp
    have hleafne : leaf.id ≠ "" := hne leaf (hmemp leaf hleafmem)
    rw [show jsOrNullStr (some leaf.id) = some leaf.id by
      rw [jsOrNullStr]; simp [hleafne]]
    have hch2 : List.Chain'
        (fun a b => mapGet (buildSnapshotTree records).parentOf a.id = some b.id)
        (leaf :: pre.reverse) := hrev ▸ hchainrev
    have hnd2 : ((leaf :: pre.reverse).map SnapRecord.id).Nodup := by
      rw [← hrev, List.map_reverse, List.nodup_reverse]
      exact hndp
    have hres := walkUp_chain (buildSnapshotTree records).parentOf pre.reverse leaf []
      ((buildSnapshotTree records).parentOf.length + 2) hch2 hlastrev hnd2
      (fun r _ => by simp)
      (fun r hr => hne r (hmemp r (by
        rw [← hrev] at hr
        exact List.mem_reverse.mp hr)))
      (by
        have hplen : path.length = pre.length + 1 := by
          rw [hpre, List.length_append]
          rfl
        rw [List.length_reverse]
        omega)
    rw [hres, hrev]
    rfl
  have hpathToRoot : (walkUp (buildSnapshotTree records).parentOf
      ((buildSnapshotTree records).parentOf.length + 2)
      (jsOrNullStr (some leaf.id)) []).reverse = path.map SnapRecord.id := by
    rw [hwalk, List.map_reverse, List.reverse_reverse]
  have hrootstree : (buildSnapshotTree records).roots = [c0] := by
    rw [roots_build, hrootsC0]
  -- Step B: the selection update is exactly the fork-pair fold over the
  -- path (the single root disables the root-index update).
  have hsel2 : selectBranchContaining leaf.id (buildSnapshotTree records) sel =
      ((path.map SnapRecord.id).zip (path.map SnapRecord.id).tail).foldl
        (selectPairStep (buildSnapshotTree records)) sel := by
    simp only [selectBranchContaining]
    rw [hpathToRoot]
    cases hpm : path.map SnapRecord.id with
    | nil => rfl
    | cons x xs =>
      simp only
      rw [hrootstree]
      rw [if_neg (by norm_num)]
  -- Step C: the display walk follows the path.
  have hfollow : ∀ q ∈ path.zip path.tail,
      displayPick (selectBranchContaining leaf.id (buildSnapshotTree records) sel) q.1
        (childrenAt records q.1.id) = some q.2 := by
    intro q hq
    cases hq12 : q with
    | mk q1 q2 =>
      rw [hq12] at hq
      simp only
      have hqR : q2 ∈ childrenAt records q1.id := by
        have := chain'_pairs hchain (q1, q2) hq
        exact this
      have hq2p : q2 ∈ path := List.mem_of_mem_tail (List.of_mem_zip hq).2
      cases hca : childrenAt records q1.id with
      | nil => rw [hca] at hqR; simp at hqR
      | cons c cs =>
        cases cs with
        | nil =>
          rw [hca] at hqR
          have hq2c : q2 = c := by simpa using hqR
          rw [displayPick]
          have hmin0 : ∀ m : Nat, min m ([] : List SnapRecord).length = 0 := by simp
          simp [hq2c]
        | cons d ds =>
          have hqs : (q1.id, q2.id) ∈
              ((path.map SnapRecord.id).zip (path.map SnapRecord.id).tail) := by
            rw [map_tail, List.zip_map]
            exact List.mem_map_of_mem (Prod.map SnapRecord.id SnapRecord.id) hq
          have hkeysnd : ((((path.map SnapRecord.id)).zip
              ((path.map SnapRecord.id)).tail).map Prod.fst).Nodup := by
            rw [zip_tail_fst]
            exact List.Nodup.sublist (List.dropLast_sublist _) hndp
          have hget := selectPairFold_get_mem (buildSnapshotTree records) _ sel
            q1.id q2.id hqs hkeysnd
          have hg : mapGet (buildSnapshotTree records).childrenOf q1.id =
              some (c :: d :: ds) := by
            have hcl := childrenLookup_build records q1.id
            rw [childrenLookup] at hcl
            cases hgg : mapGet (buildSnapshotTree records).childrenOf q1.id with
            | none =>
              rw [hgg] at hcl
              rw [hca] at hcl
              simp at hcl
            | some x =>
              rw [hgg] at hcl
              rw [hca] at hcl
              simp only [Option.getD_some] at hcl
              rw [hcl]
          rw [hg] at hget
          simp only at hget
          rw [if_pos (by simp)] at hget
          have hex : ∃ x ∈ c :: d :: ds, (decide (x.id = q2.id)) = true := by
            refine ⟨q2, ?_, by simp⟩
            rw [← hca]
            exact hqR
          have hfi := List.findIdx?_eq_some_of_exists hex
          rw [hfi] at hget
          have hget2 : _ = some (List.findIdx (fun x => decide (x.id = q2.id))
              (c :: d :: ds)) := hget
          have hidxlt := List.findIdx_lt_length_of_exists hex
          simp only [displayPick]
          simp only [hsel2, hget2]
          have hminid : min ((some (List.findIdx (fun x => decide (x.id = q2.id))
              (c :: d :: ds))).getD 0) ((d :: ds).length) =
              List.findIdx (fun x => decide (x.id = q2.id)) (c :: d :: ds) := by
            simp only [Option.getD_some]
            apply min_eq_left
            simp only [List.length_cons] at hidxlt ⊢
            omega
          simp only [hminid]
          have hmem2 : (c :: d :: ds).get ⟨List.findIdx
              (fun x => decide (x.id = q2.id)) (c :: d :: ds), hidxlt⟩ ∈
              childrenAt records q1.id := by
            rw [hca]
            exact List.get_mem _ _ hidxlt
          have hideq : ((c :: d :: ds).get ⟨List.findIdx
              (fun x => decide (x.id = q2.id)) (c :: d :: ds), hidxlt⟩).id =
              q2.id := by
            have hp := @List.findIdx_getElem _ (fun x => decide (x.id = q2.id))
              (c :: d :: ds) hidxlt
            simpa using hp
          have hfinal : (c :: d :: ds).get ⟨List.findIdx
              (fun x => decide (x.id = q2.id)) (c :: d :: ds), hidxlt⟩ = q2 :=
            id_inj hnd (childrenAt_mem hmem2) (hmemp q2 hq2p) hideq
          exact congrArg some hfinal
  -- assemble
  have hlenpath : path.length ≤ records.length := by
    have hsubp : path.map SnapRecord.id ⊆ records.map SnapRecord.id := by
      intro x hx
      rcases List.mem_map.mp hx with ⟨r, hr, hid⟩
      exact hid ▸ List.mem_map_of_mem SnapRecord.id (hmemp r hr)
    have hle := (List.subperm_of_subset hndp hsubp).length_le
    rw [List.length_map, List.length_map] at hle
    exact hle
  have hcur : ∀ (i : Nat) (h : i < [c0].length), [c0].get ⟨i, h⟩ = c0 := by
    intro i h
    rw [List.get_eq_getElem]
    have hi : i = 0 := by
      simp only [List.length_singleton] at h
      omega
    subst hi
    rfl
  have hdisp : getDisplayPathFuel (buildSnapshotTree records)
      (selectBranchContaining leaf.id (buildSnapshotTree records) sel)
      ((buildSnapshotTree records).byId.length + 1) = some path := by
    rw [getDisplayPathFuel]
    simp only [hrootstree]
    rw [hcur]
    have hfol := displayAux_follow records
      (selectBranchContaining leaf.id (buildSnapshotTree records) sel)
      path.tail c0 [c0] ((buildSnapshotTree records).byId.length + 1)
      (by rw [← hpathcons]; exact hchain)
      (by
        intro r hr
        rw [← hpathcons, hlast] at hr
        have : leaf = r := by simpa using hr
        rw [← this]
        exact hleafc)
      (by
        intro q hq
        apply hfollow q
        rw [hpathcons]
        rw [← hpathcons] at hq
        rw [hpathcons] at hq ⊢
        exact hq)
      (by
        have hbl : (buildSnapshotTree records).byId.length = records.length :=
          byIdOf_length hnd
        have htl : path.tail.length + 1 = path.length := by
          cases path with
          | nil => exact absurd rfl hpne
          | cons a t => rfl
        omega)
    rw [hfol, List.singleton_append, ← hpathcons]
  refine ⟨?_, ?_⟩
  · rw [getDisplayPath, hdisp]
    rfl
  · rw [getDisplayPath, hdisp]
    exact hlast

/-- C5 counterexample inputs: a legacy root `A` and a childless record `B`
whose `parentId` names a non-existent record `ghost`. -/
def recsC5 : List SnapRecord :=
  [{ id := "A", timestamp := 1 },
   { id := "B", parentId := some "ghost", timestamp := 2 }]

/-- C5 counterexample: the record set has unique ids and builds an acyclic
tree, `B` is a childless record that is itself a root of the built tree
(hence reachable from a root), yet the display path computed from the
selections returned by `selectBranchContaining "B"` ends at `A`, not at
`B`: the upward walk from `B` reaches the phantom id `ghost`, which heads
`pathToRoot`, so no root or fork selection matching `B` is ever recorded. -/
theorem C5_counterexample :
    (idsOf recsC5).Nodup ∧
    childrenAt recsC5 "B" = [] ∧
    ({ id := "B", parentId := some "ghost", timestamp := 2 } : SnapRecord) ∈
      (buildSnapshotTree recsC5).roots ∧
    (getDisplayPath (buildSnapshotTree recsC5)
        (selectBranchContaining "B" (buildSnapshotTree recsC5) [])).getLast? =
      some { id := "A", timestamp := 1 } := by
  have htree : buildSnapshotTree recsC5 =
      { childrenOf := [],
        parentOf := [("B", "ghost")],
        roots := [{ id := "A", timestamp := 1 },
          { id := "B", parentId := some "ghost", timestamp := 2 }],
        byId := [("A", { id := "A", timestamp := 1 }),
          ("B", { id := "B", parentId := some "ghost", timestamp := 2 })] } := by
    simp [buildSnapshotTree, chainLegacy, addBranched, mapSet, mapHas, mapGet,
      pushChild, recsC5, tsLe, List.mergeSort]
  refine ⟨by decide, ?_, ?_, ?_⟩
  · rw [← childrenLookup_build, htree]
    decide
  · rw [htree]
    decide
  · rw [htree]
    decide

/-- C5 witness inputs: a single legacy root `r` with a genuine fork into
two branched children `a` and `b`. -/
def recsC5w : List SnapRecord :=
  [{ id := "r", timestamp := 1 },
   { id := "a", parentId := some "r", timestamp := 2 },
   { id := "b", parentId := some "r", timestamp := 3 }]

/-- C5 witness: on the concrete forked tree `recsC5w`, selecting the
branch containing the leaf `b` and recomputing the display path yields
exactly the root-to-leaf path ending at `b`. -/
theorem C5_witness :
    getDisplayPath (buildSnapshotTree recsC5w)
        (selectBranchContaining "b" (buildSnapshotTree recsC5w) []) =
      [{ id := "r", timestamp := 1 },
       { id := "b", parentId := some "r", timestamp := 3 }] ∧
    (getDisplayPath (buildSnapshotTree recsC5w)
        (selectBranchContaining "b" (buildSnapshotTree recsC5w) [])).getLast? =
      some { id := "b", parentId := some "r", timestamp := 3 } := by
  have htreew : buildSnapshotTree recsC5w =
      { childrenOf := [("r", [{ id := "a", parentId := some "r", timestamp := 2 },
          { id := "b", parentId := some "r", timestamp := 3 }])],
        parentOf := [("a", "r"), ("b", "r")],
        roots := [{ id := "r", timestamp := 1 }],
        byId := [("r", { id := "r", timestamp := 1 }),
          ("a", { id := "a", parentId := some "r", timestamp := 2 }),
          ("b", { id := "b", parentId := some "r", timestamp := 3 })] } := by
    simp [buildSnapshotTree, chainLegacy, addBranched, mapSet, mapHas, mapGet,
      pushChild, recsC5w, tsLe, List.mergeSort]
  have h := C5_selectBranch_display_round_trip recsC5w (by decide)
    (by decide)
    (by
      intro r hr pid hpid
      fin_cases hr
      · exact Option.noConfusion hpid
      · obtain rfl : "r" = pid := Option.some.inj hpid
        decide
      · obtain rfl : "r" = pid := Option.some.inj hpid
        decide)
    { id := "b", parentId := some "r", timestamp := 3 }
    (by rw [← childrenLookup_build, htreew]; decide)
    [{ id := "r", timestamp := 1 },
     { id := "b", parentId := some "r", timestamp := 3 }]
    (by
      refine ⟨by decide, ?_, ?_, by decide⟩
      · intro r hr
        obtain rfl : ({ id := "r", timestamp := 1 } : SnapRecord) = r :=
          Option.some.inj hr
        rw [← roots_build, htreew]
        decide
      · refine List.chain'_cons.mpr ⟨?_, List.chain'_singleton _⟩
        rw [← childrenLookup_build, htreew]
        decide)
    []
  exact h

/-! ## captureSnapshot (src/unnamed/part_001 lines 2682-2755)

    async function captureSnapshot(label = "Auto") {
        if (restoreLock) return false;
        const graphData = getGraphData();
        if (!graphData) return false;
        const nodes = graphData.nodes || [];
        if (nodes.length === 0) return false;
        const workflowKey = getWorkflowKey();
        const serialized = JSON.stringify(graphData);
        const hash = quickHash(serialized);
        if (hash === lastCapturedHashMap.get(workflowKey)) return false;
        const prevGraph = lastGraphDataMap.get(workflowKey);
        const changeType = detectChangeType(prevGraph, graphData);
        let parentId = null;
        if (branchingEnabled) {
            if (activeSnapshotId) parentId = activeSnapshotId;
            else if (lastCapturedIdMap.has(workflowKey))
                parentId = lastCapturedIdMap.get(workflowKey);
        }
        const record = { id: generateId(), workflowKey, timestamp: Date.now(),
            label, nodeCount: nodes.length, graphData, locked: false,
            changeType, parentId };
        try {
            await db_put(record);
            if (branchingEnabled) {
                const allRecs = await db_getAllForWorkflow(workflowKey);
                const tempTree = buildSnapshotTree(allRecs);
                const ancestors = getAncestorIds(record.id, tempTree.parentOf);
                for (const [pid, children] of tempTree.childrenOf)
                    if (children.length > 1) ancestors.add(pid);
                ancestors.add(record.id);
                await pruneSnapshots(workflowKey, [...ancestors]);
            } else {
                await pruneSnapshots(workflowKey);
            }
        } catch { return false; }
        lastCapturedHashMap.set(workflowKey, hash);
        lastGraphDataMap.set(workflowKey, graphData);
        lastCapturedIdMap.set(workflowKey, record.id);
        currentSnapshotId = null;
        activeSnapshotId = null;
        return record.id;
    }

The host collaborators are modeled as inputs: `getGraphData()` is
`env.graphData` (null when the editor has no graph), `getWorkflowKey()`
is `env.workflowKey`, `generateId()` is `env.newId`, `Date.now()` is
`env.now`, `JSON.stringify` is `cfg.stringify`, and a `db_put` call that
throws (`db_put` rethrows its fetch error, src/unnamed/part_001 lines
1321-1337) is `env.putOk = false`, in which case the `catch` returns
false before any bookkeeping update.  `pruneSnapshots` (lines 1440-1454)
catches its own errors internally and never throws.  The engine
module-state that captureSnapshot reads and writes is `EngineState`;
the server-side snapshot collection is modeled as the record list
`EngineState.store`. -/

structure CaptureConfig : Type where
  stringify : Graph → String
  branchingEnabled : Bool
  maxSnapshots : Nat

structure CaptureEnv : Type where
  restoreLock : Bool
  graphData : Option Graph
  workflowKey : String
  newId : String
  now : Int
  putOk : Bool

structure EngineState : Type where
  lastCapturedHashMap : JMap String Int := []
  lastGraphDataMap : JMap String Graph := []
  lastCapturedIdMap : JMap String String := []
  activeSnapshotId : Option String := none
  currentSnapshotId : Option String := none
  store : List SnapRecord := []
  deriving DecidableEq, Repr

/-- The outcome of one captureSnapshot call: the returned value
(`some id` for a successful capture, `none` for `return false`), the
updated engine/store state, and the `protectedIds` argument of the
`pruneSnapshots` call if one was made. -/
structure CaptureOutcome : Type where
  result : Option String
  state : EngineState
  pruneCall : Option (List String)
  deriving DecidableEq, Repr

/-- Modelled from the spec: the store's `put(record)` operation is an
upsert by `id` into the collection's record list (spec section 6,
"`put(record)`: upsert by `id`"). -/
def dbPut (store : List SnapRecord) (r : SnapRecord) : List SnapRecord :=
  if store.any (fun s => s.id = r.id) then
    store.map (fun s => if s.id = r.id then r else s)
  else store ++ [r]

/-- `Set.add` of a JS Set, modeled on insertion-ordered lists. -/
def setAdd (s : List String) (x : String) : List String :=
  if x ∈ s then s else s ++ [x]

/-- Modelled from the spec: the server-side prune endpoint
(`prune(collectionKey, cap, sourcePool, protectedIds)`, spec sections
4.5 and 6): within the collection's retention pool for the given source
tag, the records that are neither locked nor protected are sorted by
timestamp ascending and the oldest `max(0, poolSize - cap)` of them are
deleted; locked and protected records are never deleted. -/
def serverPrune (cap : Nat) (workflowKey : String) (srcTag : Option String)
    (protectedIds : List String) (store : List SnapRecord) : List SnapRecord :=
  let pool := store.filter (fun r => r.workflowKey = workflowKey ∧ r.source = srcTag)
  let candidates := pool.filter
    (fun r => r.locked = false ∧ ¬ r.id ∈ protectedIds)
  let doomed := (candidates.mergeSort tsLe).take (pool.length - cap)
  store.filter (fun r => ¬ doomed.any (fun d => d.id = r.id))

/-- The `parentId` determination of captureSnapshot (`if (activeSnapshotId)`
is a JS truthiness test, so an empty-string id reads as null). -/
def captureParentId (cfg : CaptureConfig) (st : EngineState) (wk : String) :
    Option String :=
  if cfg.branchingEnabled then
    match jsOrNullStr st.activeSnapshotId with
    | some aid => some aid
    | none =>
      if mapHas st.lastCapturedIdMap wk then mapGet st.lastCapturedIdMap wk
      else none
  else none

/-- The record object that captureSnapshot builds. -/
def captureRecord (cfg : CaptureConfig) (env : CaptureEnv) (label : String)
    (st : EngineState) (g : Graph) : SnapRecord :=
  { id := env.newId, workflowKey := env.workflowKey, timestamp := env.now,
    label := label, nodeCount := g.nodes.length, graphData := some g,
    locked := false,
    changeType := detectChangeType (mapGet st.lastGraphDataMap env.workflowKey) g,
    parentId := captureParentId cfg st env.workflowKey }

/-- The protected-id set computed in the branching arm: ancestors of the
new record, plus every id whose children list has more than one entry,
plus the new record's own id (JS Set insertion order). -/
def captureProtectedIds (tree : SnapTree) (newId : String) : List String :=
  setAdd
    (tree.childrenOf.foldl
      (fun s p => if 1 < p.2.length then setAdd s p.1 else s)
      (getAncestorIds newId tree.parentOf))
    newId

/-- The tail of captureSnapshot once every guard has passed and the put
succeeded: put, prune, then update the per-collection bookkeeping and
clear both snapshot pointers. -/
def captureGo (cfg : CaptureConfig) (env : CaptureEnv) (label : String)
    (st : EngineState) (g : Graph) : CaptureOutcome :=
  let record := captureRecord cfg env label st g
  let store1 := dbPut st.store record
  let pr : List SnapRecord × Option (List String) :=
    if cfg.branchingEnabled then
      let allRecs := store1.filter (fun r => r.workflowKey = env.workflowKey)
      let tempTree := buildSnapshotTree allRecs
      let pids := captureProtectedIds tempTree record.id
      (serverPrune cfg.maxSnapshots env.workflowKey none pids store1, some pids)
    else
      (serverPrune cfg.maxSnapshots env.workflowKey none [] store1, some [])
  let st2 : EngineState :=
    { lastCapturedHashMap := mapSet st.lastCapturedHashMap env.workflowKey
        (quickHash (cfg.stringify g)),
      lastGraphDataMap := mapSet st.lastGraphDataMap env.workflowKey g,
      lastCapturedIdMap := mapSet st.lastCapturedIdMap env.workflowKey record.id,
      activeSnapshotId := none,
      currentSnapshotId := none,
      store := pr.1 }
  { result := some record.id, state := st2, pruneCall := pr.2 }

def captureSnapshot (cfg : CaptureConfig) (env : CaptureEnv) (label : String)
    (st : EngineState) : CaptureOutcome :=
  if env.restoreLock then ⟨none, st, none⟩
  else
    match env.graphData with
    | none => ⟨none, st, none⟩
    | some g =>
      if g.nodes.length = 0 then ⟨none, st, none⟩
      else if some (quickHash (cfg.stringify g)) =
          mapGet st.lastCapturedHashMap env.workflowKey then ⟨none, st, none⟩
      else if env.putOk then captureGo cfg env label st g
      else ⟨none, st, none⟩

/-- When every guard passes and the put succeeds, captureSnapshot runs
its success tail. -/
theorem captureSnapshot_success (cfg : CaptureConfig) (env : CaptureEnv)
    (label : String) (st : EngineState) (g : Graph)
    (h1 : env.restoreLock = false) (h2 : env.graphData = some g)
    (h3 : g.nodes.length ≠ 0)
    (h4 : some (quickHash (cfg.stringify g)) ≠
      mapGet st.lastCapturedHashMap env.workflowKey)
    (h5 : env.putOk = true) :
    captureSnapshot cfg env label st = captureGo cfg env label st g := by
  rw [captureSnapshot, h1, h2]
  simp only [Bool.false_eq_true, if_false]
  rw [if_neg h3, if_neg h4, h5, if_pos rfl]

/-- Every aborting branch of captureSnapshot leaves the engine state
untouched and returns false. -/
theorem captureSnapshot_abort_state (cfg : CaptureConfig) (env : CaptureEnv)
    (label : String) (st : EngineState)
    (h : ∀ g, env.graphData = some g →
      g.nodes.length ≠ 0 →
      env.restoreLock = false →
      some (quickHash (cfg.stringify g)) =
        mapGet st.lastCapturedHashMap env.workflowKey ∨ env.putOk = false) :
    (captureSnapshot cfg env label st).result = none ∧
    (captureSnapshot cfg env label st).state = st := by
  rw [captureSnapshot]
  by_cases hr : env.restoreLock = true
  · rw [if_pos hr]
    exact ⟨rfl, rfl⟩
  · rw [if_neg hr]
    cases hg : env.graphData with
    | none => exact ⟨rfl, rfl⟩
    | some g =>
      simp only
      by_cases h0 : g.nodes.length = 0
      · rw [if_pos h0]
        exact ⟨rfl, rfl⟩
      · rw [if_neg h0]
        by_cases hh : some (quickHash (cfg.stringify g)) =
            mapGet st.lastCapturedHashMap env.workflowKey
        · rw [if_pos hh]
          exact ⟨rfl, rfl⟩
        · rw [if_neg hh]
          rcases h g hg h0 (by simpa using hr) with hh2 | hput
          · exact absurd hh2 hh
          · rw [hput]
            exact ⟨rfl, rfl⟩

/-- C4: if the persistent store's put operation fails (throws) during
captureSnapshot, the call returns false and the engine bookkeeping for
the collection — the last-captured hash map, last graph-data map and
last-captured id map, indeed the whole engine state including the
store — is left unchanged, so a retry is safe. -/
theorem C4_put_failure_keeps_state (cfg : CaptureConfig) (env : CaptureEnv)
    (label : String) (st : EngineState)
    (hput : env.putOk = false) :
    (captureSnapshot cfg env label st).result = none ∧
    (captureSnapshot cfg env label st).state.lastCapturedHashMap =
      st.lastCapturedHashMap ∧
    (captureSnapshot cfg env label st).state.lastGraphDataMap =
      st.lastGraphDataMap ∧
    (captureSnapshot cfg env label st).state.lastCapturedIdMap =
      st.lastCapturedIdMap ∧
    (captureSnapshot cfg env label st).state = st := by
  have h := captureSnapshot_abort_state cfg env label st
    (fun g _ _ _ => Or.inr hput)
  exact ⟨h.1, by rw [h.2], by rw [h.2], by rw [h.2], h.2⟩

def cfgC4 : CaptureConfig :=
  { stringify := fun _ => "s", branchingEnabled := true, maxSnapshots := 50 }

/-- C4 witness inputs: a fresh engine state, a non-empty graph, and a
put operation that fails; every guard before the put passes. -/
def envC4 : CaptureEnv :=
  { restoreLock := false, graphData := some { nodes := [{ id := 1 }] },
    workflowKey := "wf", newId := "n1", now := 0, putOk := false }

/-- C4 witness: on the concrete failing-put capture, the result is false
and the engine state is untouched. -/
theorem C4_witness :
    (captureSnapshot cfgC4 envC4 "Auto" {}).result = none ∧
    (captureSnapshot cfgC4 envC4 "Auto" {}).state = {} := by
  have h := C4_put_failure_keeps_state cfgC4 envC4 "Auto" {} (by decide)
  exact ⟨h.1, h.2.2.2.2⟩

/-- C3: after a successful capture, a second capture attempt for the
same collection whose document serializes identically is rejected by the
hash-dedup guard: it returns false and leaves the engine state (store
included) unchanged, so exactly one record was stored for the unchanged
document. -/
theorem C3_capture_dedup (cfg : CaptureConfig) (env env2 : CaptureEnv)
    (label label2 : String) (st : EngineState) (g g2 : Graph)
    (h1 : env.restoreLock = false) (h2 : env.graphData = some g)
    (h3 : g.nodes.length ≠ 0)
    (h4 : some (quickHash (cfg.stringify g)) ≠
      mapGet st.lastCapturedHashMap env.workflowKey)
    (h5 : env.putOk = true)
    (hg2 : env2.graphData = some g2)
    (hser : cfg.stringify g2 = cfg.stringify g)
    (hwk : env2.workflowKey = env.workflowKey) :
    (captureSnapshot cfg env label st).result = some env.newId ∧
    (captureSnapshot cfg env2 label2
        (captureSnapshot cfg env label st).state).result = none ∧
    (captureSnapshot cfg env2 label2
        (captureSnapshot cfg env label st).state).state =
      (captureSnapshot cfg env label st).state := by
  have hs := captureSnapshot_success cfg env label st g h1 h2 h3 h4 h5
  have hmap : (captureSnapshot cfg env label st).state.lastCapturedHashMap =
      mapSet st.lastCapturedHashMap env.workflowKey
        (quickHash (cfg.stringify g)) := by
    rw [hs]
    rfl
  refine ⟨by rw [hs]; rfl, ?_⟩
  apply captureSnapshot_abort_state
  intro g2' hg2' _ _
  left
  obtain rfl : g2' = g2 := by
    rw [hg2'] at hg2
    exact Option.some.inj hg2
  rw [hmap, hwk, mapGet_set_self, hser]

def cfgC3 : CaptureConfig :=
  { stringify := fun _ => "s", branchingEnabled := true, maxSnapshots := 50 }

def envC3 : CaptureEnv :=
  { restoreLock := false, graphData := some { nodes := [{ id := 1 }] },
    workflowKey := "wf", newId := "n1", now := 0, putOk := true }

def envC3b : CaptureEnv :=
  { restoreLock := false, graphData := some { nodes := [{ id := 1 }] },
    workflowKey := "wf", newId := "n2", now := 5, putOk := true }

/-- C3 witness: capturing the same document twice on a fresh engine
state stores one record and rejects the second capture unchanged. -/
theorem C3_witness :
    (captureSnapshot cfgC3 envC3 "Auto" {}).result = some "n1" ∧
    (captureSnapshot cfgC3 envC3b "Auto"
        (captureSnapshot cfgC3 envC3 "Auto" {}).state).result = none ∧
    (captureSnapshot cfgC3 envC3b "Auto"
        (captureSnapshot cfgC3 envC3 "Auto" {}).state).state =
      (captureSnapshot cfgC3 envC3 "Auto" {}).state := by
  have h := C3_capture_dedup cfgC3 envC3 envC3b "Auto" "Auto" {}
    { nodes := [{ id := 1 }] } { nodes := [{ id := 1 }] }
    rfl rfl (by decide) (by decide) rfl rfl rfl rfl
  exact h

/-! ## JSON serialization of the modeled graph domain

`JSON.stringify(graphData)` on the modeled `Graph` domain: object keys
in declaration order, `undefined` (i.e. `none`) fields omitted, strings
quoted with `"` and `\` escaped (the modeled strings contain no control
characters), numbers printed in decimal. -/

def jsonEscape (s : String) : String :=
  s.data.foldl (fun acc c =>
    acc ++ (if c = '"' then "\\\"" else if c = '\\' then "\\\\"
      else String.singleton c)) ""

def stringifyJVal : JVal → String
  | JVal.null => "null"
  | JVal.bool b => if b then "true" else "false"
  | JVal.num n => toString n
  | JVal.str s => "\"" ++ jsonEscape s ++ "\""

def stringifyIntPair (p : Int × Int) : String :=
  "[" ++ toString p.1 ++ "," ++ toString p.2 ++ "]"

def stringifyGNode (n : GNode) : String :=
  "\x7b\"id\":" ++ toString n.id ++
    (match n.ty with
      | none => ""
      | some t => ",\"type\":\"" ++ jsonEscape t ++ "\"") ++
    (match n.title with
      | none => ""
      | some t => ",\"title\":\"" ++ jsonEscape t ++ "\"") ++
    (match n.pos with
      | none => ""
      | some p => ",\"pos\":" ++ stringifyIntPair p) ++
    (match n.size with
      | none => ""
      | some p => ",\"size\":" ++ stringifyIntPair p) ++
    (match n.mode with
      | none => ""
      | some m => ",\"mode\":" ++ toString m) ++
    (match n.widgets_values with
      | none => ""
      | some l => ",\"widgets_values\":[" ++
          String.intercalate "," (l.map stringifyJVal) ++ "]") ++
    (match n.properties with
      | [] => ""
      | ps => ",\"properties\":\x7b" ++
          String.intercalate "," (ps.map (fun kv =>
            "\"" ++ jsonEscape kv.1 ++ "\":" ++ stringifyJVal kv.2)) ++
          "\x7d") ++
    "\x7d"

def stringifyLink : Option LinkRec → String
  | none => "null"
  | some l =>
    "[" ++ toString l.linkId ++ "," ++ toString l.srcNodeId ++ "," ++
      toString l.srcSlot ++ "," ++ toString l.destNodeId ++ "," ++
      toString l.destSlot ++ "," ++ stringifyJVal l.ty ++ "]"

def stringifyGraph (g : Graph) : String :=
  "\x7b\"nodes\":[" ++ String.intercalate "," (g.nodes.map stringifyGNode) ++
    "],\"links\":[" ++ String.intercalate "," (g.links.map stringifyLink) ++
    "]\x7d"

/-- C10 collision inputs: two graphs whose only difference is a node
title of `"Aa"` versus `"BB"`.  The 31-based rolling hash collides:
`"A"*31 + "a" = 65*31 + 97 = 2112 = 66*31 + 66 = "B"*31 + "B"`. -/
def gC10a : Graph := { nodes := [{ id := 1, title := some "Aa" }] }

def gC10b : Graph := { nodes := [{ id := 1, title := some "BB" }] }

def cfgC10 : CaptureConfig :=
  { stringify := stringifyGraph, branchingEnabled := false,
    maxSnapshots := 50 }

def envC10a : CaptureEnv :=
  { restoreLock := false, graphData := some gC10a, workflowKey := "wf",
    newId := "id1", now := 1, putOk := true }

def envC10b : CaptureEnv :=
  { restoreLock := false, graphData := some gC10b, workflowKey := "wf",
    newId := "id2", now := 2, putOk := true }

/-- C10: capture dedup compares the 32-bit quickHash of the serialized
document, not the document: the two distinct graphs `gC10a`/`gC10b`
serialize to different strings with the same quickHash, the first
capture succeeds and stores its record, and the subsequent capture of
the changed document is silently skipped - it returns false and the
engine state, store included, is unchanged. -/
theorem C10_hash_collision_dedup :
    gC10a ≠ gC10b ∧
    stringifyGraph gC10a ≠ stringifyGraph gC10b ∧
    quickHash (stringifyGraph gC10a) = quickHash (stringifyGraph gC10b) ∧
    (captureSnapshot cfgC10 envC10a "Auto" {}).result = some "id1" ∧
    (captureSnapshot cfgC10 envC10a "Auto" {}).state.store.length = 1 ∧
    (captureSnapshot cfgC10 envC10b "Auto"
        (captureSnapshot cfgC10 envC10a "Auto" {}).state).result = none ∧
    (captureSnapshot cfgC10 envC10b "Auto"
        (captureSnapshot cfgC10 envC10a "Auto" {}).state).state =
      (captureSnapshot cfgC10 envC10a "Auto" {}).state := by
  set_option maxRecDepth 10000 in decide

/-! ## Transitive parent-pointer ancestry and the guarded collector -/

/-- `a` is a strict ancestor of `x` in the parent-pointer map: one or
more `parentOf` steps lead from `x` up to `a`. -/
inductive AncOf (parentOf : JMap String String) : String → String → Prop
  | parent {x p : String} : mapGet parentOf x = some p → AncOf parentOf p x
  | step {x p a : String} : mapGet parentOf x = some p →
      AncOf parentOf a p → AncOf parentOf a x

/-- The collector only ever appends to its accumulator. -/
theorem getAncestorIdsAux_sub (parentOf : JMap String String) :
    ∀ (fuel : Nat) (cur : String) (anc : List String),
      anc ⊆ getAncestorIdsAux parentOf fuel cur anc := by
  intro fuel
  induction fuel with
  | zero =>
    intro cur anc
    rw [getAncestorIdsAux]
    exact List.Subset.refl _
  | succ f ih =>
    intro cur anc
    rw [getAncestorIdsAux]
    cases hg : mapGet parentOf cur with
    | none => exact List.Subset.refl _
    | some p =>
      simp only
      by_cases hp : p ∈ anc
      · rw [if_pos hp]
        exact List.Subset.refl _
      · rw [if_neg hp]
        intro x hx
        exact ih p (anc ++ [p]) (List.mem_append_left _ hx)

/-- With at least one unit of fuel, the current node's parent lands in
the collected set. -/
theorem getAncestorIdsAux_parent_mem (parentOf : JMap String String)
    (fuel : Nat) (cur p : String) (anc : List String)
    (hg : mapGet parentOf cur = some p) (hf : 1 ≤ fuel) :
    p ∈ getAncestorIdsAux parentOf fuel cur anc := by
  cases fuel with
  | zero => omega
  | succ f =>
    rw [getAncestorIdsAux, hg]
    simp only
    by_cases hp : p ∈ anc
    · rw [if_pos hp]
      exact hp
    · rw [if_neg hp]
      exact getAncestorIdsAux_sub parentOf f p (anc ++ [p])
        (List.mem_append_right _ (by simp))

/-- With sufficient fuel and a chain-shaped accumulator, the collected
set is closed under one parent step: the parent of every collected id is
itself collected. -/
theorem getAncestorIdsAux_closed (parentOf : JMap String String) :
    ∀ (fuel : Nat) (cur : String) (anc : List String),
      ancMeasure parentOf anc + 1 ≤ fuel →
      (∀ x ∈ anc, ∀ p, mapGet parentOf x = some p → p ∈ anc ∨ x = cur) →
      (anc = [] ∨ cur ∈ anc) →
      ∀ x ∈ getAncestorIdsAux parentOf fuel cur anc, ∀ p,
        mapGet parentOf x = some p →
        p ∈ getAncestorIdsAux parentOf fuel cur anc := by
  intro fuel
  induction fuel with
  | zero =>
    intro cur anc h1
    omega
  | succ f ih =>
    intro cur anc h1 hinv hcur x hx p hp
    cases hg : mapGet parentOf cur with
    | none =>
      rw [getAncestorIdsAux, hg] at hx ⊢
      rcases hinv x hx p hp with hin | hxcur
      · exact hin
      · rw [hxcur] at hp
        rw [hp] at hg
        exact Option.noConfusion hg
    | some q =>
      by_cases hq : q ∈ anc
      · rw [getAncestorIdsAux, hg] at hx ⊢
        simp only at hx ⊢
        rw [if_pos hq] at hx ⊢
        rcases hinv x hx p hp with hin | hxcur
        · exact hin
        · rw [hxcur] at hp
          rw [hp] at hg
          cases Option.some.inj hg
          exact hq
      · rw [getAncestorIdsAux, hg] at hx ⊢
        simp only at hx ⊢
        rw [if_neg hq] at hx ⊢
        have hlt := ancMeasure_lt parentOf anc cur q hg hq
        refine ih q (anc ++ [q]) (by omega) ?_ ?_ x hx p hp
        · intro y hy r hr
          rcases List.mem_append.mp hy with hy1 | hy2
          · rcases hinv y hy1 r hr with h | h
            · exact Or.inl (List.mem_append_left _ h)
            · rw [h] at hr
              rw [hr] at hg
              cases Option.some.inj hg
              exact Or.inl (List.mem_append_right _ (by simp))
          · have hyq : y = q := by simpa using hy2
            exact Or.inr hyq
        · exact Or.inr (List.mem_append_right _ (by simp))

/-- Every transitive strict ancestor of the start id is collected by
`getAncestorIds` (the visited-set guard stops cycles only after the
whole reachable ancestor set has been gathered). -/
theorem getAncestorIds_mem_of_ancOf (parentOf : JMap String String)
    (startId : String) :
    ∀ a, AncOf parentOf a startId → a ∈ getAncestorIds startId parentOf := by
  have hfuel : ancMeasure parentOf [] + 1 ≤ ancFuel parentOf := by
    have := ancMeasure_le parentOf []
    rw [ancFuel]
    omega
  have hclosed := getAncestorIdsAux_closed parentOf (ancFuel parentOf) startId []
    hfuel (by intro x hx; simp at hx) (Or.inl rfl)
  have hD : ∀ a y, AncOf parentOf a y →
      y ∈ getAncestorIds startId parentOf →
      a ∈ getAncestorIds startId parentOf := by
    intro a y hanc
    induction hanc with
    | parent hg =>
      intro hy
      exact hclosed _ hy _ hg
    | step hg hsub ihsub =>
      intro hy
      exact ihsub (hclosed _ hy _ hg)
  intro a hanc
  cases hanc with
  | parent hg =>
    exact getAncestorIdsAux_parent_mem parentOf _ _ _ [] hg
      (by rw [ancFuel]; omega)
  | step hg hsub =>
    have hp := getAncestorIdsAux_parent_mem parentOf (ancFuel parentOf)
      startId _ [] hg (by rw [ancFuel]; omega)
    exact hD _ _ hsub hp

theorem mem_setAdd_self (s : List String) (x : String) : x ∈ setAdd s x := by
  rw [setAdd]
  by_cases h : x ∈ s
  · rw [if_pos h]
    exact h
  · rw [if_neg h]
    exact List.mem_append_right _ (by simp)

theorem mem_setAdd_of_mem (s : List String) (x y : String) (h : y ∈ s) :
    y ∈ setAdd s x := by
  rw [setAdd]
  by_cases hx : x ∈ s
  · rw [if_pos hx]
    exact h
  · rw [if_neg hx]
    exact List.mem_append_left _ h

/-- The fork-point fold only grows the collected set. -/
theorem forkFold_mono (l : List (String × List SnapRecord)) :
    ∀ (s : List String) (y : String), y ∈ s →
      y ∈ l.foldl (fun s p => if 1 < p.2.length then setAdd s p.1 else s) s := by
  induction l with
  | nil =>
    intro s y h
    exact h
  | cons a t ih =>
    intro s y h
    simp only [List.foldl_cons]
    by_cases hc : 1 < a.2.length
    · rw [if_pos hc]
      exact ih _ _ (mem_setAdd_of_mem _ _ _ h)
    · rw [if_neg hc]
      exact ih _ _ h

/-- Every entry with more than one child contributes its key to the
fork-point fold. -/
theorem forkFold_mem (l : List (String × List SnapRecord)) :
    ∀ (s : List String) (e : String × List SnapRecord), e ∈ l →
      1 < e.2.length →
      e.1 ∈ l.foldl (fun s p => if 1 < p.2.length then setAdd s p.1 else s) s := by
  induction l with
  | nil =>
    intro s e he
    simp at he
  | cons a t ih =>
    intro s e he hbig
    simp only [List.foldl_cons]
    rcases List.mem_cons.mp he with rfl | hmem
    · rw [if_pos hbig]
      exact forkFold_mono t _ _ (mem_setAdd_self _ _)
    · by_cases hc : 1 < a.2.length
      · rw [if_pos hc]
        exact ih _ _ hmem hbig
      · rw [if_neg hc]
        exact ih _ _ hmem hbig

/-- The store upsert preserves duplicate-freedom of record ids. -/
theorem dbPut_ids_nodup (store : List SnapRecord) (r : SnapRecord)
    (h : (idsOf store).Nodup) : (idsOf (dbPut store r)).Nodup := by
  rw [dbPut]
  by_cases hc : store.any (fun s => s.id = r.id) = true
  · rw [if_pos hc]
    have hids : idsOf (store.map (fun s => if s.id = r.id then r else s)) =
        idsOf store := by
      rw [idsOf, idsOf, List.map_map]
      apply List.map_congr_left
      intro s _
      simp only [Function.comp_apply]
      by_cases hs : s.id = r.id
      · rw [if_pos hs]
        exact hs.symm
      · rw [if_neg hs]
    rw [hids]
    exact h
  · rw [if_neg hc]
    rw [idsOf, List.map_append]
    apply List.Nodup.append h (by simp)
    intro a ha hb
    simp only [List.map_cons, List.map_nil, List.mem_singleton] at hb
    rcases List.mem_map.mp ha with ⟨s, hs, hsid⟩
    simp only [List.any_eq_true, decide_eq_true_eq] at hc
    push_neg at hc
    exact hc s hs (hsid.trans hb)

/-- The spec-modelled server prune never deletes a locked record
(assuming duplicate-free ids, the store invariant). -/
theorem serverPrune_keeps_locked (cap : Nat) (wk : String) (src : Option String)
    (pids : List String) (store : List SnapRecord)
    (hnd : (idsOf store).Nodup) (r : SnapRecord) (hr : r ∈ store)
    (hl : r.locked = true) : r ∈ serverPrune cap wk src pids store := by
  rw [serverPrune]
  refine List.mem_filter.mpr ⟨hr, ?_⟩
  simp only [decide_eq_true_eq, List.any_eq_true]
  push_neg
  intro d hd hdid
  have hdc : d ∈ ((store.filter (fun r => r.workflowKey = wk ∧ r.source = src)).filter
      (fun r => r.locked = false ∧ ¬ r.id ∈ pids)).mergeSort tsLe :=
    List.mem_of_mem_take hd
  rw [(List.mergeSort_perm _ tsLe).mem_iff] at hdc
  have hd2 := List.mem_filter.mp hdc
  have hd3 := List.mem_filter.mp hd2.1
  have hdl : d.locked = false := by
    have hx := hd2.2
    simp only [decide_eq_true_eq] at hx
    exact hx.1
  have hdr : d = r := id_inj hnd hd3.1 hr hdid
  rw [hdr] at hdl
  rw [hl] at hdl
  exact Bool.noConfusion hdl

/-- With branching enabled, the prune call of the success tail carries
the protected-id set computed from the freshly rebuilt tree, and the
resulting store is the spec-modelled prune of the post-put store. -/
theorem captureGo_branching (cfg : CaptureConfig) (env : CaptureEnv)
    (label : String) (st : EngineState) (g : Graph)
    (hbr : cfg.branchingEnabled = true) :
    (captureGo cfg env label st g).pruneCall =
      some (captureProtectedIds
        (buildSnapshotTree ((dbPut st.store (captureRecord cfg env label st g)).filter
          (fun r => r.workflowKey = env.workflowKey))) env.newId) ∧
    (captureGo cfg env label st g).state.store =
      serverPrune cfg.maxSnapshots env.workflowKey none
        (captureProtectedIds
          (buildSnapshotTree ((dbPut st.store (captureRecord cfg env label st g)).filter
            (fun r => r.workflowKey = env.workflowKey))) env.newId)
        (dbPut st.store (captureRecord cfg env label st g)) := by
  constructor
  · rw [captureGo, hbr]
    rfl
  · rw [captureGo, hbr]
    rfl

/-- C2: whenever captureSnapshot succeeds with branching enabled (the
hypotheses are the code's success-branch conditions, plus the store
invariant of duplicate-free ids), the protected-id list passed to the
prune contains the new record's id, every transitive strict ancestor of
the new record in the rebuilt tree's parent map, and the key of every
children entry of that tree with more than one child; and every locked
record of the post-put store survives the prune.  (The claim's further
assertion that locked ids are also in the passed protected-id set is
refuted by `C2_counterexample`.) -/
theorem C2_capture_prune_protection (cfg : CaptureConfig) (env : CaptureEnv)
    (label : String) (st : EngineState) (g : Graph)
    (hbr : cfg.branchingEnabled = true)
    (h1 : env.restoreLock = false) (h2 : env.graphData = some g)
    (h3 : g.nodes.length ≠ 0)
    (h4 : some (quickHash (cfg.stringify g)) ≠
      mapGet st.lastCapturedHashMap env.workflowKey)
    (h5 : env.putOk = true)
    (hnd : (idsOf st.store).Nodup) :
    (captureSnapshot cfg env label st).result = some env.newId ∧
    (captureSnapshot cfg env label st).pruneCall =
      some (captureProtectedIds
        (buildSnapshotTree ((dbPut st.store (captureRecord cfg env label st g)).filter
          (fun r => r.workflowKey = env.workflowKey))) env.newId) ∧
    env.newId ∈ captureProtectedIds
      (buildSnapshotTree ((dbPut st.store (captureRecord cfg env label st g)).filter
        (fun r => r.workflowKey = env.workflowKey))) env.newId ∧
    (∀ a, AncOf (buildSnapshotTree ((dbPut st.store
        (captureRecord cfg env label st g)).filter
        (fun r => r.workflowKey = env.workflowKey))).parentOf a env.newId →
      a ∈ captureProtectedIds
        (buildSnapshotTree ((dbPut st.store (captureRecord cfg env label st g)).filter
          (fun r => r.workflowKey = env.workflowKey))) env.newId) ∧
    (∀ e ∈ (buildSnapshotTree ((dbPut st.store
        (captureRecord cfg env label st g)).filter
        (fun r => r.workflowKey = env.workflowKey))).childrenOf,
      1 < e.2.length →
      e.1 ∈ captureProtectedIds
        (buildSnapshotTree ((dbPut st.store (captureRecord cfg env label st g)).filter
          (fun r => r.workflowKey = env.workflowKey))) env.newId) ∧
    (∀ r ∈ dbPut st.store (captureRecord cfg env label st g),
      r.locked = true → r ∈ (captureSnapshot cfg env label st).state.store) := by
  have hs := captureSnapshot_success cfg env label st g h1 h2 h3 h4 h5
  have hgo := captureGo_branching cfg env label st g hbr
  refine ⟨?_, ?_, ?_, ?_, ?_, ?_⟩
  · rw [hs]
    rfl
  · rw [hs]
    exact hgo.1
  · rw [captureProtectedIds]
    exact mem_setAdd_self _ _
  · intro a ha
    rw [captureProtectedIds]
    apply mem_setAdd_of_mem
    apply forkFold_mono
    exact getAncestorIds_mem_of_ancOf _ _ a ha
  · intro e he hbig
    rw [captureProtectedIds]
    apply mem_setAdd_of_mem
    exact forkFold_mem _ _ _ he hbig
  · intro r hr hl
    rw [hs, hgo.2]
    exact serverPrune_keeps_locked _ _ _ _ _ (dbPut_ids_nodup _ _ hnd) _ hr hl

/-! ### C2 concrete inputs: a locked sibling of the new capture -/

def gC2 : Graph := { nodes := [{ id := 1 }] }

def cfgC2 : CaptureConfig :=
  { stringify := fun _ => "s", branchingEnabled := true, maxSnapshots := 50 }

def envC2 : CaptureEnv :=
  { restoreLock := false, graphData := some gC2, workflowKey := "wf",
    newId := "new1", now := 10, putOk := true }

def recP1 : SnapRecord := { id := "p1", workflowKey := "wf", timestamp := 1 }

def recLockedC2 : SnapRecord :=
  { id := "locked1", workflowKey := "wf", timestamp := 2, locked := true,
    parentId := some "p1" }

def stC2 : EngineState :=
  { lastCapturedIdMap := [("wf", "p1")], store := [recP1, recLockedC2] }

def newRecC2 : SnapRecord :=
  { id := "new1", workflowKey := "wf", timestamp := 10, label := "Auto",
    nodeCount := 1, graphData := some gC2, locked := false,
    changeType := "initial", parentId := some "p1" }

/-- C2 counterexample: a successful branching capture in a store holding
a locked record that is neither an ancestor of the new capture nor a
fork point.  The protected-id list passed to the prune is exactly
`["p1", "new1"]` (continuation parent and the new id) and does not
contain the locked record's id: lockedIds are not part of the
protected-id set the client sends. -/
theorem C2_counterexample :
    (captureSnapshot cfgC2 envC2 "Auto" stC2).result = some "new1" ∧
    recLockedC2 ∈ stC2.store ∧
    recLockedC2.locked = true ∧
    (captureSnapshot cfgC2 envC2 "Auto" stC2).pruneCall = some ["p1", "new1"] ∧
    ¬ "locked1" ∈ (["p1", "new1"] : List String) := by
  have hs := captureSnapshot_success cfgC2 envC2 "Auto" stC2 gC2 rfl rfl
    (by decide) (by decide) rfl
  have hgo := captureGo_branching cfgC2 envC2 "Auto" stC2 gC2 rfl
  have hrec : captureRecord cfgC2 envC2 "Auto" stC2 gC2 = newRecC2 := by decide
  refine ⟨by rw [hs]; rfl, by decide, by decide, ?_, by decide⟩
  rw [hs, hgo.1, hrec]
  have htree : buildSnapshotTree ((dbPut stC2.store newRecC2).filter
      (fun r => r.workflowKey = envC2.workflowKey)) =
      { childrenOf := [("p1", [recLockedC2, newRecC2])],
        parentOf := [("locked1", "p1"), ("new1", "p1")],
        roots := [recP1],
        byId := [("p1", recP1), ("locked1", recLockedC2),
          ("new1", newRecC2)] } := by
    simp [buildSnapshotTree, chainLegacy, addBranched, mapSet, mapHas, mapGet,
      pushChild, dbPut, stC2, recP1, recLockedC2, newRecC2, envC2, tsLe,
      List.mergeSort]
  rw [htree]
  decide

/-- C2 witness: the amended protection guarantees on the concrete
capture `cfgC2`/`envC2`/`stC2`. -/
theorem C2_witness :
    (captureSnapshot cfgC2 envC2 "Auto" stC2).result = some envC2.newId ∧
    (captureSnapshot cfgC2 envC2 "Auto" stC2).pruneCall =
      some (captureProtectedIds
        (buildSnapshotTree ((dbPut stC2.store
          (captureRecord cfgC2 envC2 "Auto" stC2 gC2)).filter
          (fun r => r.workflowKey = envC2.workflowKey))) envC2.newId) ∧
    envC2.newId ∈ captureProtectedIds
      (buildSnapshotTree ((dbPut stC2.store
        (captureRecord cfgC2 envC2 "Auto" stC2 gC2)).filter
        (fun r => r.workflowKey = envC2.workflowKey))) envC2.newId ∧
    (∀ a, AncOf (buildSnapshotTree ((dbPut stC2.store
        (captureRecord cfgC2 envC2 "Auto" stC2 gC2)).filter
        (fun r => r.workflowKey = envC2.workflowKey))).parentOf a envC2.newId →
      a ∈ captureProtectedIds
        (buildSnapshotTree ((dbPut stC2.store
          (captureRecord cfgC2 envC2 "Auto" stC2 gC2)).filter
          (fun r => r.workflowKey = envC2.workflowKey))) envC2.newId) ∧
    (∀ e ∈ (buildSnapshotTree ((dbPut stC2.store
        (captureRecord cfgC2 envC2 "Auto" stC2 gC2)).filter
        (fun r => r.workflowKey = envC2.workflowKey))).childrenOf,
      1 < e.2.length →
      e.1 ∈ captureProtectedIds
        (buildSnapshotTree ((dbPut stC2.store
          (captureRecord cfgC2 envC2 "Auto" stC2 gC2)).filter
          (fun r => r.workflowKey = envC2.workflowKey))) envC2.newId) ∧
    (∀ r ∈ dbPut stC2.store (captureRecord cfgC2 envC2 "Auto" stC2 gC2),
      r.locked = true →
      r ∈ (captureSnapshot cfgC2 envC2 "Auto" stC2).state.store) :=
  C2_capture_prune_protection cfgC2 envC2 "Auto" stC2 gC2 rfl rfl rfl
    (by decide) (by decide) rfl (by decide)

end SnapshotManager
